import Mathlib

/-!
Verification of the worth compiler middle-end (preprocessor, control-flow
resolver, stack-effect typechecker) against its specification.

The Rust sources are shallowly embedded: mutable in-place updates become
explicit state passing, `Vec` stacks become Lean lists, the backpatchable
jump slots written through `&mut` references become an index-plus-field
arena scheme, file reads during include resolution become an abstract
`String -> Option (List Instruction)` map, and Rust panics
(`Option::unwrap` on `None`, `unreachable!`, `todo!`) become a distinct
`panicked` outcome next to the returned error values.
-/

namespace Worth

/-! ## Instruction model (src/instruction.rs as used by the preprocessor) -/

/-- `Value`: payload of a `Push` instruction. -/
inductive Value where
  | int (i : Int)
  | str (s : String)
  | char (c : Nat)
  | ptr (s : String)
  | bool (b : Bool)
deriving DecidableEq, Repr

/-- Intrinsics (src/codegen/intrinsics.rs plus the ones matched by typecheck.rs). -/
inductive Intrinsic where
  | print
  | panic
  | dup
  | dup2
  | swap
  | mem
  | drop
  | drop2
  | over
  | argc
  | argv
  | castPtr
  | castInt
  | here
deriving DecidableEq, Repr

/-- `Op`: arithmetic / comparison / memory primitives. -/
inductive Op where
  | add | sub | mul | div | divMod
  | bitAnd | bitOr | bitXor | bitNot
  | shl | shr
  | eq | neq | lt | gt | lte | gte
  | store | load | load64 | store64
  | mod
deriving DecidableEq, Repr

/-- Control keywords with their backpatchable jump slots, as matched by
src/preprocessor.rs (`If` carries no slot there; `Elif` carries
`self_ip`/`end_ip`; `End` carries `self_ip` and an optional `while_ip`). -/
inductive Keyword where
  | kwhile (self_ip do_ip : Nat)
  | kdo (end_ip : Nat)
  | kif
  | kelif (self_ip end_ip : Nat)
  | kelse (self_ip end_ip : Nat)
  | kend (self_ip : Nat) (while_ip : Option Nat)
  | kmac
  | kinc
deriving DecidableEq, Repr

/-- Syscall arity tags `Syscall0` .. `Syscall6`. -/
inductive SyscallKind where
  | syscall0 | syscall1 | syscall2 | syscall3 | syscall4 | syscall5 | syscall6
deriving DecidableEq, Repr

/-- `InstructionKind`: the tagged variant of one instruction. -/
inductive InstructionKind where
  | push (v : Value)
  | intrinsic (i : Intrinsic)
  | op (o : Op)
  | kw (k : Keyword)
  | name (n : String)
  | syscall (s : SyscallKind)
deriving DecidableEq, Repr

/-- An instruction: kind, source location `(file, line, col)`, instruction pointer. -/
structure Instruction where
  kind : InstructionKind
  loc : String × Nat × Nat := ("", 0, 0)
  ip : Nat := 0
deriving DecidableEq, Repr

/-- A collected macro: name, verbatim body slice, defining span. -/
structure MacroDef where
  mname : String := ""
  body : List Instruction := []
  span : Nat × Nat := (0, 0)
deriving DecidableEq, Repr

/-- A program: name, flat instruction array, macro map (HashMap modelled as
an association list with last-writer-wins insert). -/
structure Program where
  pname : String := ""
  instructions : List Instruction := []
  macros : List (String × MacroDef) := []
deriving DecidableEq, Repr

/-- Association-list lookup, standing in for `HashMap::get`. -/
def mapGet (m : List (String × MacroDef)) (k : String) : Option MacroDef :=
  match m with
  | [] => none
  | (k', v) :: rest => if k' = k then some v else mapGet rest k

/-- Association-list insert with overwrite, standing in for `HashMap::insert`. -/
def mapInsert (m : List (String × MacroDef)) (k : String) (v : MacroDef) :
    List (String × MacroDef) :=
  match m with
  | [] => [(k, v)]
  | (k', v') :: rest =>
    if k' = k then (k, v) :: rest else (k', v') :: mapInsert rest k v

/-! ## Errors (src/error.rs, `PreprocessorError`), plus a `panicked` outcome
for Rust panics such as `Option::unwrap` on an empty stack. -/

inductive PreprocessorError where
  | invalidInclude (s : String)
  | invalidFilename (s : String)
  | includeNotFound (s : String)
  | tooManyMacroExpansions
  | recursiveInclude
  | unexpectedKeyword (s : String)
  | unexpectedMacroEnd
  | unclosedBlock (s : String)
deriving DecidableEq, Repr

inductive RunError where
  | pre (e : PreprocessorError)
  | panicked
deriving DecidableEq, Repr

/-! ## Display strings used in error payloads -/

def valueString : Value → String
  | .int i => toString i
  | .str s => s
  | .char c => toString c
  | .ptr s => s
  | .bool b => toString b

def keywordString : Keyword → String
  | .kwhile _ _ => "while"
  | .kdo _ => "do"
  | .kif => "if"
  | .kelif _ _ => "elif"
  | .kelse _ _ => "else"
  | .kend _ _ => "end"
  | .kmac => "macro"
  | .kinc => "include"

def kindString : InstructionKind → String
  | .push v => valueString v
  | .intrinsic _ => "intrinsic"
  | .op _ => "op"
  | .kw k => keywordString k
  | .name n => n
  | .syscall _ => "syscall"

/-! ## Here-literal substitution (src/preprocessor.rs, `here`) -/

def locString (loc : String × Nat × Nat) : String :=
  loc.1 ++ ":" ++ toString loc.2.1 ++ ":" ++ toString loc.2.2

/-- `here`: replace every `Here` intrinsic with a pushed string literal
encoding its own source location. -/
def hereSubst (instrs : List Instruction) : List Instruction :=
  instrs.map fun inst =>
    match inst.kind with
    | .intrinsic .here =>
      { kind := .push (.str (locString inst.loc)), loc := inst.loc, ip := inst.ip }
    | _ => inst

/-! ## Include resolution (src/preprocessor.rs, `includes`)

The collection loop walks the array with an iterator that also consumes the
instruction following each `include` keyword, marking both for removal (the
indices marked are strictly increasing, so the removal loop with its running
offset deletes exactly the marked positions); `scanIncludes` fuses the
collection and removal into one structural pass returning the kept
instructions and the include paths in textual order.  File system access is
abstracted by `fs : String → Option (List Instruction)`, returning the
parsed sub-program of a readable file. -/

abbrev Fs := String → Option (List Instruction)

/-- The `Push(Value::Str(path))` pattern of the include-argument match. -/
def includeArg : InstructionKind → Option String
  | .push (.str path) => some path
  | _ => none

def scanIncludes (ip : Nat) :
    List Instruction → Except RunError (List Instruction × List (String × Nat))
  | [] => .ok ([], [])
  | inst :: rest =>
    if inst.kind = .kw .kinc then
      match rest with
      | [] => .ok ([], [])
      | inst2 :: rest2 =>
        match includeArg inst2.kind with
        | some path =>
          match scanIncludes (ip + 2) rest2 with
          | .error e => .error e
          | .ok (kept, ps) => .ok (kept, (path, ip + 1) :: ps)
        | none => .error (.pre (.invalidInclude (kindString inst2.kind)))
    else
      match scanIncludes (ip + 1) rest with
      | .error e => .error e
      | .ok (kept, ps) => .ok (inst :: kept, ps)


/-- `includes`: resolve include pairs at this level and recursively
preprocess each included file, appending its instructions at the end of the
including program's array (mirroring `program.instructions.append`).

The recursion-depth counter `depth` of the source (entry check
`depth > 100`, recursive calls at `depth + 1`, top call at `0`) is carried
here as the remaining budget `fuel = 101 - depth`, so `fuel = 0` is exactly
`depth > 100` and the top-level call passes `101`.  The read / parse /
`here` / recursive-`includes` loop over the collected include paths runs
left to right, stopping at the first failure, after the existence check has
run over all collected paths. -/
def includesRun (fs : Fs) : Nat → List Instruction → Except RunError (List Instruction)
  | 0, _ => .error (.pre .recursiveInclude)
  | fuel + 1, instrs =>
    match scanIncludes 0 instrs with
    | .error e => .error e
    | .ok (kept, ps) =>
      -- process includes: existence check for every path first
      match ps.find? (fun pq => (fs pq.1).isNone) with
      | some pq => .error (.pre (.includeNotFound pq.1))
      | none =>
        match ps.foldl (fun (acc : Except RunError (List Instruction)) pq =>
            match acc with
            | .error e => .error e
            | .ok soFar =>
              match fs pq.1 with
              | none => .error (.pre (.includeNotFound pq.1))
              | some sub =>
                match includesRun fs fuel (hereSubst sub) with
                | .error e => .error e
                | .ok subOut => .ok (soFar ++ subOut)) (Except.ok []) with
        | .error e => .error e
        | .ok subs => .ok (kept ++ subs)

/-- The body of the include-processing fold of `includesRun`, exposed as a
definition of its own for the proofs below. -/
def includeSubStep (fs : Fs) (fuel : Nat)
    (acc : Except RunError (List Instruction)) (pq : String × Nat) :
    Except RunError (List Instruction) :=
  match acc with
  | .error e => .error e
  | .ok soFar =>
    match fs pq.1 with
    | none => .error (.pre (.includeNotFound pq.1))
    | some sub =>
      match includesRun fs fuel (hereSubst sub) with
      | .error e => .error e
      | .ok subOut => .ok (soFar ++ subOut)

/-! ## Frame tags

The Rust code tracks pending blocks with string tags (`"macro"`, `"if"`,
`"ifdo"`, ...); we use a closed enum with the same inhabitants. -/

inductive Tag where
  | tmac | tif | telif | telse | twhile | tdo
  | tifdo | telifdo | twhiledo
deriving DecidableEq, Repr

/-- The raw tag string, as interpolated by `format!("end following {t}")`. -/
def tagString : Tag → String
  | .tmac => "macro"
  | .tif => "if"
  | .telif => "elif"
  | .telse => "else"
  | .twhile => "while"
  | .tdo => "do"
  | .tifdo => "ifdo"
  | .telifdo => "elifdo"
  | .twhiledo => "whiledo"

/-- `kw_str` (src/error.rs): pretty rendering of the compound tags. -/
def kwStr : Tag → String
  | .twhiledo => "while ... do"
  | .tifdo => "if ... do"
  | .telifdo => "elif ... do"
  | t => tagString t

/-! ## Macro collection (src/preprocessor.rs, `collect_macros`)

Walk state: the accumulated macro map, the body and name of the macro
currently being recorded, the pending-block stack, the `in_macro` flag and
the running instruction index.  An arm of the Rust `match` that executes
`continue` skips the trailing `if in_macro { macro_body.push(...) }`;
the other arms fall through to it. -/

def bodyPush (inMacro : Bool) (body : List Instruction) (inst : Instruction) :
    List Instruction :=
  if inMacro then body ++ [inst] else body

/-- The walk state of `collect_macros`: the accumulated macro map, the body
and name of the macro currently being recorded, the pending-block stack,
and the `in_macro` flag. -/
structure CollectSt where
  macros : List (String × MacroDef) := []
  body : List Instruction := []
  mname : String := ""
  mstack : List (Tag × Nat) := []
  inMacro : Bool := false
deriving DecidableEq, Repr

/-- One iteration of the `collect_macros` loop on the instruction whose
kind is `k` (the caller passes `inst.kind`; the kind is a separate argument
so that this definition's equations are usable per constructor).  An arm of
the Rust `match` that executes `continue` skips the trailing
`if in_macro { macro_body.push(...) }`; the other arms fall through to it,
which is the `bodyPush` in their result state. -/
def collectStep (k : InstructionKind) (inst : Instruction) (st : CollectSt) (ip : Nat) :
    Except RunError CollectSt :=
  match k with
  | .kw .kmac =>
    .ok { st with mstack := (Tag.tmac, ip) :: st.mstack, inMacro := true }
  | .name n =>
    if st.inMacro && st.mname = "" then .ok { st with mname := n }
    else .ok { st with body := bodyPush st.inMacro st.body inst }
  | .kw (.kend _ _) =>
    match st.mstack with
    | [] => .error .panicked
    | (kind, startIp) :: mrest =>
      match kind with
      | .tmac =>
        if st.inMacro then
          .ok { st with
                macros := mapInsert st.macros st.mname
                  { mname := st.mname, body := st.body, span := (startIp, ip) },
                body := [], mname := "", mstack := mrest, inMacro := false }
        else .error (.pre .unexpectedMacroEnd)
      | _ => .ok { st with mstack := mrest, body := bodyPush st.inMacro st.body inst }
  | .kw .kif =>
    .ok { st with
          mstack := (Tag.tif, ip) :: st.mstack,
          body := bodyPush st.inMacro st.body inst }
  | .kw (.kelif _ _) =>
    .ok { st with
          mstack := (Tag.telif, ip) :: st.mstack,
          body := bodyPush st.inMacro st.body inst }
  | .kw (.kelse _ _) =>
    .ok { st with
          mstack := (Tag.telse, ip) :: st.mstack,
          body := bodyPush st.inMacro st.body inst }
  | .kw (.kwhile _ _) =>
    .ok { st with
          mstack := (Tag.twhile, ip) :: st.mstack,
          body := bodyPush st.inMacro st.body inst }
  | .kw (.kdo _) =>
    match st.mstack with
    | [] => .error .panicked
    | _ :: mrest =>
      .ok { st with
            mstack := (Tag.tdo, ip) :: mrest,
            body := bodyPush st.inMacro st.body inst }
  | _ => .ok { st with body := bodyPush st.inMacro st.body inst }

def collectMacrosGo (st : CollectSt) (ip : Nat) :
    List Instruction → Except RunError (List (String × MacroDef))
  | [] => .ok st.macros
  | inst :: rest =>
    match collectStep inst.kind inst st ip with
    | .error e => .error e
    | .ok st' => collectMacrosGo st' (ip + 1) rest

def collectMacros (prog : Program) : Except RunError (List (String × MacroDef)) :=
  collectMacrosGo { macros := prog.macros } 0 prog.instructions

/-! ## Macro expansion (src/preprocessor.rs, `expand_macros`)

One pass producing a fresh instruction list; a free `Name` that resolves in
the macro map is replaced by a clone of the macro body and sets the
`has_expanded` flag; macro definitions are skipped via the `in_macro` flag. -/

/-- The walk state of `expand_macros`: the pending-block stack, the
`in_macro` flag, the fresh output array and the `has_expanded` flag. -/
structure ExpandSt where
  mstack : List Tag := []
  inMacro : Bool := false
  acc : List Instruction := []
  hasExpanded : Bool := false
deriving DecidableEq, Repr

/-- The trailing `if !in_macro { new_instructions.push(...) }` of a
non-`continue` arm. -/
def accPush (inMacro : Bool) (acc : List Instruction) (inst : Instruction) :
    List Instruction :=
  if inMacro then acc else acc ++ [inst]

/-- One iteration of the `expand_macros` loop on the instruction whose kind
is `k` (the caller passes `inst.kind`). -/
def expandStep (macros : List (String × MacroDef)) (k : InstructionKind)
    (inst : Instruction) (st : ExpandSt) : Except RunError ExpandSt :=
  match k with
  | .kw .kmac =>
    .ok { st with mstack := Tag.tmac :: st.mstack, inMacro := true }
  | .name n =>
    if !st.inMacro then
      match mapGet macros n with
      | some m => .ok { st with acc := st.acc ++ m.body, hasExpanded := true }
      | none => .ok { st with acc := accPush st.inMacro st.acc inst }
    else .ok { st with acc := accPush st.inMacro st.acc inst }
  | .kw (.kwhile _ _) =>
    .ok { st with
          mstack := Tag.twhile :: st.mstack,
          acc := accPush st.inMacro st.acc inst }
  | .kw (.kdo _) =>
    match st.mstack with
    | [] => .error .panicked
    | _ :: mrest =>
      .ok { st with mstack := Tag.tdo :: mrest, acc := accPush st.inMacro st.acc inst }
  | .kw .kif =>
    .ok { st with
          mstack := Tag.tif :: st.mstack,
          acc := accPush st.inMacro st.acc inst }
  | .kw (.kelif _ _) =>
    match st.mstack with
    | [] => .error .panicked
    | _ :: mrest =>
      .ok { st with mstack := Tag.telif :: mrest, acc := accPush st.inMacro st.acc inst }
  | .kw (.kelse _ _) =>
    match st.mstack with
    | [] => .error .panicked
    | _ :: mrest =>
      .ok { st with mstack := Tag.telse :: mrest, acc := accPush st.inMacro st.acc inst }
  | .kw (.kend _ _) =>
    match st.mstack with
    | [] => .error .panicked
    | kind :: mrest =>
      if kind = Tag.tmac && st.inMacro then
        .ok { st with mstack := mrest, inMacro := false }
      else
        .ok { st with mstack := mrest, acc := accPush st.inMacro st.acc inst }
  | _ => .ok { st with acc := accPush st.inMacro st.acc inst }

def expandMacrosGo (macros : List (String × MacroDef)) (st : ExpandSt) :
    List Instruction → Except RunError (List Instruction × Bool)
  | [] => .ok (st.acc, st.hasExpanded)
  | inst :: rest =>
    match expandStep macros inst.kind inst st with
    | .error e => .error e
    | .ok st' => expandMacrosGo macros st' rest

def expandMacros (prog : Program) : Except RunError (Program × Bool) :=
  match expandMacrosGo prog.macros {} prog.instructions with
  | .error e => .error e
  | .ok (out, hasExpanded) => .ok ({ prog with instructions := out }, hasExpanded)

/-- The fixpoint loop of `process`: repeat `expand_macros` while it reports a
substitution, failing once the pass counter reaches 100.  The source counts
`depth` up from `0` and fails a `true` pass when `depth >= 100`; here the
counter is carried as the remaining budget `rem = 100 - depth`, so the
failing check is `rem = 0` and the top-level call passes `100`. -/
def expandLoop : Nat → Program → Except RunError Program
  | rem, prog =>
    match expandMacros prog with
    | .error e => .error e
    | .ok (prog', hasExpanded) =>
      if hasExpanded then
        match rem with
        | 0 => .error (.pre .tooManyMacroExpansions)
        | rem' + 1 => expandLoop rem' prog'
      else .ok prog'

/-! ## Instruction-pointer assignment (src/preprocessor.rs, `ips`) -/

def ipsAssignGo (ip : Nat) : List Instruction → List Instruction
  | [] => []
  | inst :: rest => { inst with ip := ip } :: ipsAssignGo (ip + 1) rest

def ipsAssign (instrs : List Instruction) : List Instruction :=
  ipsAssignGo 0 instrs

/-! ## Control-flow resolver (src/preprocessor.rs, `jumps`)

The Rust frames hold `Option<&mut usize>` references into keyword jump
slots; here a slot reference is the pair of the target instruction's index
and a field selector (the arena-plus-index reading of those references:
the only fields ever referenced are `self_ip` of a `While` and the
`end_ip` fields of `Do` / `Elif` / `Else`).  Writes to the current
instruction's own fields are applied before it is appended to the
processed prefix `done`, whose length always equals the current index, so
every reference held by a frame points into `done`. -/

inductive SlotField where
  | fSelfIp
  | fEndIp
deriving DecidableEq, Repr

abbrev Slot := Nat × SlotField

/-- Write value `v` into the selected jump-slot field of a keyword kind. -/
def patchKind (k : InstructionKind) (f : SlotField) (v : Nat) : InstructionKind :=
  match f, k with
  | .fSelfIp, .kw (.kwhile _ d) => .kw (.kwhile v d)
  | .fSelfIp, .kw (.kelif _ e) => .kw (.kelif v e)
  | .fSelfIp, .kw (.kelse _ e) => .kw (.kelse v e)
  | .fSelfIp, .kw (.kend _ w) => .kw (.kend v w)
  | .fEndIp, .kw (.kdo _) => .kw (.kdo v)
  | .fEndIp, .kw (.kelif s _) => .kw (.kelif s v)
  | .fEndIp, .kw (.kelse s _) => .kw (.kelse s v)
  | _, _ => k

/-- `*slot = v` through a frame-held reference. -/
def slotWrite (l : List Instruction) (s : Slot) (v : Nat) : List Instruction :=
  match l[s.1]? with
  | some inst => l.set s.1 { inst with kind := patchKind inst.kind s.2 v }
  | none => l

/-- `slot.cloned()`: read the current value behind a reference
(only ever used on a `While`'s `self_ip`). -/
def slotRead (l : List Instruction) (s : Slot) : Nat :=
  match l[s.1]? with
  | some inst =>
    match s.2, inst.kind with
    | .fSelfIp, .kw (.kwhile v _) => v
    | .fSelfIp, .kw (.kelif v _) => v
    | .fSelfIp, .kw (.kelse v _) => v
    | .fSelfIp, .kw (.kend v _) => v
    | .fEndIp, .kw (.kdo v) => v
    | .fEndIp, .kw (.kelif _ v) => v
    | .fEndIp, .kw (.kelse _ v) => v
    | _, _ => 0
  | none => 0

/-- Set the `while_ip` field of an `End` keyword (the `*return_ip =
while_ip.cloned()` write in the `"whiledo"` arm). -/
def setEndWhile (k : InstructionKind) (w : Option Nat) : InstructionKind :=
  match k with
  | .kw (.kend s _) => .kw (.kend s w)
  | _ => k


/-- Erase all jump-slot payloads of a kind: two kinds with the same
`slotErase` image differ only in backpatchable slot values.  The resolver
only ever rewrites slots, so it preserves this image. -/
def slotErase : InstructionKind → InstructionKind
  | .kw (.kwhile _ _) => .kw (.kwhile 0 0)
  | .kw (.kdo _) => .kw (.kdo 0)
  | .kw (.kelif _ _) => .kw (.kelif 0 0)
  | .kw (.kelse _ _) => .kw (.kelse 0 0)
  | .kw (.kend _ _) => .kw (.kend 0 none)
  | k => k

/-- One entry of the resolver's `jump_stack`:
`(tag, slotA, slotB, last_ip, last_last_ip)`. -/
structure Frame where
  tag : Tag
  slotA : Option Slot := none
  slotB : Option Slot := none
  lastIp : Nat := 0
  lastLast : Option Nat := none
deriving DecidableEq, Repr

/-- Patch every slot accumulated in `elifs` to `v` and return the list. -/
def patchElifs (done : List Instruction) (elifs : List Slot) (v : Nat) :
    List Instruction :=
  match elifs with
  | [] => done
  | s :: rest => patchElifs (slotWrite done s v) rest v

/-- The walk state of `jumps`: the processed prefix `done` (whose length is
the current index), the frame stack, and the pending `elifs` slot list. -/
structure JumpSt where
  done : List Instruction := []
  stack : List Frame := []
  elifs : List Slot := []
deriving DecidableEq, Repr

/-- One iteration of the `jumps` loop on the instruction whose kind is `k`
(the caller passes `inst.kind`, with `inst.ip` already set to `ip`).
Writes to the current instruction's own slots are applied to `inst` before
it is appended to `done`; writes through frame-held references go through
`slotWrite` into `done`. -/
def jumpsStep (k : InstructionKind) (inst : Instruction) (st : JumpSt) (ip : Nat) :
    Except RunError JumpSt :=
  match k with
  | .kw .kif =>
    .ok { st with
          done := st.done ++ [inst],
          stack := { tag := .tif, lastIp := ip } :: st.stack }
  | .kw (.kelif _ e) =>
    match st.stack with
    | [] => .error .panicked
    | fr :: srest =>
      -- *self_ip = ip
      let inst := { inst with kind := .kw (.kelif ip e) }
      match fr.tag with
      | .tifdo | .telifdo =>
        match fr.slotA with
        | none => .error .panicked
        | some sl =>
          .ok { done := slotWrite st.done sl ip ++ [inst],
                stack := { tag := .telif, lastIp := ip,
                           lastLast := some fr.lastIp } :: srest,
                elifs := st.elifs ++ [(ip, SlotField.fEndIp)] }
      | t => .error (.pre (.unexpectedKeyword ("elif following " ++ kwStr t)))
  | .kw (.kelse _ e) =>
    match st.stack with
    | [] => .error .panicked
    | fr :: srest =>
      let inst := { inst with kind := .kw (.kelse ip e) }
      match fr.tag with
      | .tifdo | .telifdo =>
        match fr.slotA with
        | none => .error .panicked
        | some sl =>
          .ok { st with
                done := slotWrite st.done sl ip ++ [inst],
                stack := { tag := .telse, slotA := some (ip, SlotField.fEndIp),
                           lastIp := ip, lastLast := some fr.lastIp } :: srest }
      | t => .error (.pre (.unexpectedKeyword ("else following " ++ kwStr t)))
  | .kw (.kend _ w) =>
    match st.stack with
    | [] => .error .panicked
    | fr :: srest =>
      let inst := { inst with kind := .kw (.kend ip w) }
      match fr.tag with
      | .telse =>
        match fr.slotA with
        | none => .error .panicked
        | some sl =>
          .ok { done := patchElifs (slotWrite st.done sl ip) st.elifs ip ++ [inst],
                stack := srest, elifs := [] }
      | .tifdo =>
        match fr.slotA with
        | none => .error .panicked
        | some sl =>
          .ok { st with done := slotWrite st.done sl ip ++ [inst], stack := srest }
      | .twhiledo =>
        match fr.slotA with
        | none => .error .panicked
        | some sl =>
          let inst :=
            { inst with kind := setEndWhile inst.kind (fr.slotB.map (slotRead st.done)) }
          .ok { st with done := slotWrite st.done sl ip ++ [inst], stack := srest }
      | .telifdo =>
        match fr.slotA with
        | none => .error .panicked
        | some sl =>
          .ok { done := patchElifs (slotWrite st.done sl ip) st.elifs ip ++ [inst],
                stack := srest, elifs := [] }
      | t => .error (.pre (.unexpectedKeyword ("end following " ++ tagString t)))
  | .kw (.kwhile _ d) =>
    let inst := { inst with kind := .kw (.kwhile ip d) }
    .ok { st with
          done := st.done ++ [inst],
          stack := { tag := .twhile, slotA := some (ip, SlotField.fSelfIp),
                     lastIp := ip } :: st.stack }
  | .kw (.kdo _) =>
    match st.stack with
    | [] => .error .panicked
    | fr :: srest =>
      match fr.tag with
      | .tif =>
        .ok { st with
              done := st.done ++ [inst],
              stack := { tag := .tifdo, slotA := some (ip, SlotField.fEndIp),
                         lastIp := ip, lastLast := some fr.lastIp } :: srest }
      | .telif =>
        .ok { st with
              done := st.done ++ [inst],
              stack := { tag := .telifdo, slotA := some (ip, SlotField.fEndIp),
                         lastIp := ip, lastLast := some fr.lastIp } :: srest }
      | .twhile =>
        .ok { st with
              done := st.done ++ [inst],
              stack := { tag := .twhiledo, slotA := some (ip, SlotField.fEndIp),
                         slotB := fr.slotA, lastIp := ip,
                         lastLast := some fr.lastIp } :: srest }
      | t => .error (.pre (.unexpectedKeyword ("do following " ++ kwStr t)))
  | _ => .ok { st with done := st.done ++ [inst] }

def jumpsGo (st : JumpSt) (ip : Nat) :
    List Instruction → Except RunError (List Instruction)
  | [] => .ok st.done
  | inst0 :: rest =>
    let inst := { inst0 with ip := ip }
    match jumpsStep inst.kind inst st ip with
    | .error e => .error e
    | .ok st' => jumpsGo st' (ip + 1) rest

/-- `jumps`: the single forward pass.  Note there is no check of the frame
stack after the loop: the function returns `Ok` even when blocks remain
open. -/
def jumps (prog : Program) : Except RunError Program :=
  match jumpsGo {} 0 prog.instructions with
  | .error e => .error e
  | .ok out => .ok { prog with instructions := out }


/-! ### Jump-target validity: slot inventories and the resolver invariant -/

/-- All populated jump-slot values of an instruction kind: the `self_ip`
and `do_ip` of `While`, the `end_ip` of `Do`/`Elif`/`Else`, the `self_ip`
of `Elif`/`Else`/`End`, and the `while_ip` an `End` may carry. -/
def slotValues : InstructionKind → List Nat
  | .kw (.kwhile s d) => [s, d]
  | .kw (.kdo e) => [e]
  | .kw (.kelif s e) => [s, e]
  | .kw (.kelse s e) => [s, e]
  | .kw (.kend s w) => s :: w.toList
  | _ => []

/-- Every slot value of every instruction of `l` is below the bound `B` or
still at its parse default `0`. -/
def slotsBounded (B : Nat) (l : List Instruction) : Prop :=
  ∀ inst ∈ l, ∀ v ∈ slotValues inst.kind, v < B ∨ v = 0

/-- Every `End` of `l` that carries a `while_ip` points back at a `While`
whose recorded `self_ip` equals that index. -/
def doneBacked (l : List Instruction) : Prop :=
  ∀ (j : Nat) (inst : Instruction), l[j]? = some inst →
    ∀ (s : Nat) (w : Nat), inst.kind = .kw (.kend s (some w)) →
      ∃ (inst' : Instruction) (d : Nat),
        l[w]? = some inst' ∧ inst'.kind = .kw (.kwhile w d)

/-- The slot `s` is the `self_ip` field of a `While` whose stored value
equals its own index. -/
def whileAt (l : List Instruction) (s : Slot) : Prop :=
  s.2 = .fSelfIp ∧ ∃ (inst : Instruction) (d : Nat),
    l[s.1]? = some inst ∧ inst.kind = .kw (.kwhile s.1 d)

/-- What the resolver relies on per live frame: a `"while"` frame holds a
reference to a settled `While` `self_ip`; a `"whiledo"` frame's second
slot, when present, also does; and every `do`-family or `else` frame holds
an `end_ip`-field reference (the only field the resolver ever writes
through). -/
def frameOK (l : List Instruction) (fr : Frame) : Prop :=
  (fr.tag = .twhile → ∃ j, fr.slotA = some (j, .fSelfIp) ∧ whileAt l (j, .fSelfIp)) ∧
  (fr.tag = .twhiledo → ∀ s, fr.slotB = some s → whileAt l s) ∧
  ((fr.tag = .tifdo ∨ fr.tag = .telifdo ∨ fr.tag = .telse ∨ fr.tag = .twhiledo) →
    ∃ j, fr.slotA = some (j, .fEndIp))

/-- The resolver's loop invariant: the processed prefix is back-edge
consistent and slot-bounded by its own length, every frame satisfies
`frameOK`, and every pending `elifs` slot is an `end_ip` field. -/
def jumpsInv (st : JumpSt) : Prop :=
  doneBacked st.done ∧ slotsBounded st.done.length st.done ∧
  (∀ fr ∈ st.stack, frameOK st.done fr) ∧ ∀ s ∈ st.elifs, s.2 = .fEndIp

/-! ## The full preprocessor pipeline (src/preprocessor.rs, `process`) -/

def process (fs : Fs) (prog : Program) : Except RunError Program :=
  let prog1 : Program := { prog with instructions := hereSubst prog.instructions }
  match includesRun fs 101 prog1.instructions with
  | .error e => .error e
  | .ok instrs2 =>
    let prog2 : Program := { prog1 with instructions := instrs2 }
    match collectMacros prog2 with
    | .error e => .error e
    | .ok macros3 =>
      let prog3 : Program := { prog2 with macros := macros3 }
      match expandLoop 100 prog3 with
      | .error e => .error e
      | .ok prog4 =>
        let prog5 : Program := { prog4 with instructions := ipsAssign prog4.instructions }
        jumps prog5

/-! ## Stack-effect typechecker (src/typecheck.rs)

The symbolic stack is a list with its head as the top (Rust pushes and pops
at the end of a `Vec`).  Snapshots are `(stack, origin)` pairs; the source
tags them with `Keyword` values but only ever inspects the constructor, so
the origin is a four-way enum here.  The `typecheck` function of the
source revision embedded here has no `Elif` arm; the dead `panic!` /
`unreachable!` / `todo!` paths are the `panicked` outcome. -/

inductive ValType where
  | int | char | ptr | bool
deriving DecidableEq, Repr

def valTypeString : ValType → String
  | .int => "int"
  | .char => "char"
  | .ptr => "ptr"
  | .bool => "bool"

/-- Snapshot origin: the constructor of the `Keyword` value pushed with it. -/
inductive SnapKind where
  | swhile | sdo | sif | selse
deriving DecidableEq, Repr

abbrev Snap := List ValType × SnapKind

inductive TypecheckError where
  | stackUnderflow
  | invalidTypeForOp (s : String)
  | invalidLoop
  | invalidElse
  | invalidEnd
  | macInCode
  | incInCode
  | invalidStack
deriving DecidableEq, Repr

inductive TCFailure where
  | err (e : TypecheckError)
  | panicked
deriving DecidableEq, Repr

/-- `expect!`: pop one value and require its type to be in the accepted
set, reporting `StackUnderflow` on an empty stack and `InvalidTypeForOp`
(naming the instruction) otherwise. -/
def popExpect (allowed : List ValType) (opStr : String) :
    List ValType → Except TCFailure (ValType × List ValType)
  | [] => .error (.err .stackUnderflow)
  | a :: rest =>
    if allowed.contains a then .ok (a, rest)
    else .error (.err (.invalidTypeForOp opStr))

/-- `require!`: fail with `StackUnderflow` when fewer than `n` values are on
the stack (checked before anything is popped), else pop `n` values. -/
def requireN (n : Nat) (stack : List ValType) : Except TCFailure (List ValType) :=
  if stack.length < n then .error (.err .stackUnderflow)
  else .ok (stack.drop n)

/-- `Syscall0` .. `Syscall6` pop the syscall number plus arity arguments. -/
def syscallPops : SyscallKind → Nat
  | .syscall0 => 1
  | .syscall1 => 2
  | .syscall2 => 3
  | .syscall3 => 4
  | .syscall4 => 5
  | .syscall5 => 6
  | .syscall6 => 7

/-- The per-instruction transfer function: one arm of the big `match` in
`typecheck`, acting on the symbolic stack and the snapshot stack. -/
def typecheckStep (kind : InstructionKind) (stack : List ValType)
    (snaps : List Snap) : Except TCFailure (List ValType × List Snap) :=
  match kind with
  | .push v =>
    match v with
    | .int _ => .ok (.int :: stack, snaps)
    | .char _ => .ok (.char :: stack, snaps)
    | .str _ => .ok (.ptr :: .int :: stack, snaps)
    | .ptr _ => .ok (.ptr :: stack, snaps)
    | .bool _ => .ok (.bool :: stack, snaps)
  | .op o =>
    match o with
    | .add =>
      match popExpect [.int, .ptr, .char, .bool] "+" stack with
      | .error e => .error e
      | .ok (a, s1) =>
        match popExpect [.int, .ptr, .char, .bool] "+" s1 with
        | .error e => .error e
        | .ok (b, s2) =>
          match a, b with
          | .int, .int => .ok (.int :: s2, snaps)
          | .int, .ptr => .ok (.ptr :: s2, snaps)
          | .ptr, .int => .ok (.ptr :: s2, snaps)
          | .char, .int => .ok (.char :: s2, snaps)
          | .int, .char => .ok (.int :: s2, snaps)
          | .int, .bool => .ok (.int :: s2, snaps)
          | .bool, .int => .ok (.int :: s2, snaps)
          | _, _ => .error (.err (.invalidTypeForOp "+"))
    | .sub =>
      match popExpect [.int, .ptr, .char, .bool] "-" stack with
      | .error e => .error e
      | .ok (a, s1) =>
        match popExpect [.int, .ptr, .char, .bool] "-" s1 with
        | .error e => .error e
        | .ok (b, s2) =>
          match a, b with
          | .int, .int => .ok (.int :: s2, snaps)
          | .ptr, .int => .ok (.ptr :: s2, snaps)
          | .char, .int => .ok (.char :: s2, snaps)
          | .int, .char => .ok (.int :: s2, snaps)
          | .int, .bool => .ok (.int :: s2, snaps)
          | .bool, .int => .ok (.int :: s2, snaps)
          | _, _ => .error (.err (.invalidTypeForOp "-"))
    | .mul =>
      match popExpect [.int] "*" stack with
      | .error e => .error e
      | .ok (_, s1) =>
        match popExpect [.int] "*" s1 with
        | .error e => .error e
        | .ok (_, s2) => .ok (.int :: s2, snaps)
    | .div =>
      match popExpect [.int] "/" stack with
      | .error e => .error e
      | .ok (_, s1) =>
        match popExpect [.int] "/" s1 with
        | .error e => .error e
        | .ok (_, s2) => .ok (.int :: s2, snaps)
    | .divMod =>
      match popExpect [.int] "divmod" stack with
      | .error e => .error e
      | .ok (_, s1) =>
        match popExpect [.int] "divmod" s1 with
        | .error e => .error e
        | .ok (_, s2) => .ok (.int :: .int :: s2, snaps)
    | .bitAnd =>
      match popExpect [.int, .char, .bool] "band" stack with
      | .error e => .error e
      | .ok (a, s1) =>
        match popExpect [.int, .char, .bool] "band" s1 with
        | .error e => .error e
        | .ok (b, s2) =>
          match a, b with
          | .int, .bool => .ok (.int :: s2, snaps)
          | .bool, .int => .ok (.int :: s2, snaps)
          | .bool, .bool => .ok (.bool :: s2, snaps)
          | .int, .char => .ok (.int :: s2, snaps)
          | .char, .int => .ok (.int :: s2, snaps)
          | .char, .char => .ok (.char :: s2, snaps)
          | .char, .bool => .ok (.char :: s2, snaps)
          | .bool, .char => .ok (.char :: s2, snaps)
          | .int, .int => .ok (.int :: s2, snaps)
          | _, _ => .error (.err (.invalidTypeForOp "band"))
    | .bitOr =>
      match popExpect [.int, .char, .bool] "bor" stack with
      | .error e => .error e
      | .ok (a, s1) =>
        match popExpect [.int, .char, .bool] "bor" s1 with
        | .error e => .error e
        | .ok (b, s2) =>
          match a, b with
          | .int, .bool => .ok (.int :: s2, snaps)
          | .bool, .int => .ok (.int :: s2, snaps)
          | .bool, .bool => .ok (.bool :: s2, snaps)
          | .int, .char => .ok (.int :: s2, snaps)
          | .char, .int => .ok (.int :: s2, snaps)
          | .char, .char => .ok (.char :: s2, snaps)
          | .char, .bool => .ok (.char :: s2, snaps)
          | .bool, .char => .ok (.char :: s2, snaps)
          | .int, .int => .ok (.int :: s2, snaps)
          | _, _ => .error (.err (.invalidTypeForOp "bor"))
    | .bitXor =>
      match popExpect [.int, .char, .bool] "bxor" stack with
      | .error e => .error e
      | .ok (a, s1) =>
        match popExpect [.int, .char, .bool] "bxor" s1 with
        | .error e => .error e
        | .ok (b, s2) =>
          match a, b with
          | .int, .bool => .ok (.int :: s2, snaps)
          | .bool, .int => .ok (.int :: s2, snaps)
          | .bool, .bool => .ok (.bool :: s2, snaps)
          | .int, .char => .ok (.int :: s2, snaps)
          | .char, .int => .ok (.int :: s2, snaps)
          | .char, .char => .ok (.char :: s2, snaps)
          | .char, .bool => .ok (.char :: s2, snaps)
          | .bool, .char => .ok (.char :: s2, snaps)
          | .int, .int => .ok (.int :: s2, snaps)
          | _, _ => .error (.err (.invalidTypeForOp "bxor"))
    | .bitNot =>
      match popExpect [.int, .bool] "~" stack with
      | .error e => .error e
      | .ok (t, s1) =>
        match t with
        | .int => .ok (.int :: s1, snaps)
        | .char => .ok (.char :: s1, snaps)
        | .ptr => .error .panicked
        | .bool => .ok (.bool :: s1, snaps)
    | .shl =>
      match popExpect [.int] "shl" stack with
      | .error e => .error e
      | .ok (_, s1) =>
        match popExpect [.int] "shl" s1 with
        | .error e => .error e
        | .ok (_, s2) => .ok (.int :: s2, snaps)
    | .shr =>
      match popExpect [.int] "shr" stack with
      | .error e => .error e
      | .ok (_, s1) =>
        match popExpect [.int] "shr" s1 with
        | .error e => .error e
        | .ok (_, s2) => .ok (.int :: s2, snaps)
    | .eq =>
      match popExpect [.int, .ptr, .char, .bool] "=" stack with
      | .error e => .error e
      | .ok (a, s1) =>
        match popExpect [.int, .ptr, .char, .bool] "=" s1 with
        | .error e => .error e
        | .ok (b, s2) =>
          match a, b with
          | .int, .int => .ok (.bool :: s2, snaps)
          | .int, .char => .ok (.bool :: s2, snaps)
          | .int, .ptr => .ok (.bool :: s2, snaps)
          | .int, .bool => .ok (.bool :: s2, snaps)
          | .char, .char => .ok (.bool :: s2, snaps)
          | .char, .int => .ok (.bool :: s2, snaps)
          | .char, .bool => .ok (.bool :: s2, snaps)
          | .ptr, .ptr => .ok (.bool :: s2, snaps)
          | .ptr, .int => .ok (.bool :: s2, snaps)
          | .bool, .bool => .ok (.bool :: s2, snaps)
          | .bool, .int => .ok (.bool :: s2, snaps)
          | .bool, .char => .ok (.bool :: s2, snaps)
          | _, _ => .error (.err (.invalidTypeForOp "="))
    | .neq =>
      match popExpect [.int, .ptr, .char, .bool] "!=" stack with
      | .error e => .error e
      | .ok (a, s1) =>
        match popExpect [.int, .ptr, .char, .bool] "!=" s1 with
        | .error e => .error e
        | .ok (b, s2) =>
          match a, b with
          | .int, .int => .ok (.bool :: s2, snaps)
          | .int, .char => .ok (.bool :: s2, snaps)
          | .int, .ptr => .ok (.bool :: s2, snaps)
          | .int, .bool => .ok (.bool :: s2, snaps)
          | .char, .char => .ok (.bool :: s2, snaps)
          | .char, .int => .ok (.bool :: s2, snaps)
          | .char, .bool => .ok (.bool :: s2, snaps)
          | .ptr, .ptr => .ok (.bool :: s2, snaps)
          | .ptr, .int => .ok (.bool :: s2, snaps)
          | .bool, .bool => .ok (.bool :: s2, snaps)
          | .bool, .int => .ok (.bool :: s2, snaps)
          | .bool, .char => .ok (.bool :: s2, snaps)
          | _, _ => .error (.err (.invalidTypeForOp "!="))
    | .lt =>
      match popExpect [.int, .ptr, .char] "<" stack with
      | .error e => .error e
      | .ok (a, s1) =>
        match popExpect [.int, .ptr, .char] "<" s1 with
        | .error e => .error e
        | .ok (b, s2) =>
          match a, b with
          | .int, .int => .ok (.bool :: s2, snaps)
          | .ptr, .ptr => .ok (.bool :: s2, snaps)
          | .char, .char => .ok (.bool :: s2, snaps)
          | .char, .int => .ok (.bool :: s2, snaps)
          | .int, .char => .ok (.bool :: s2, snaps)
          | _, _ => .error (.err (.invalidTypeForOp "<"))
    | .gt =>
      match popExpect [.int, .ptr, .char] ">" stack with
      | .error e => .error e
      | .ok (a, s1) =>
        match popExpect [.int, .ptr, .char] ">" s1 with
        | .error e => .error e
        | .ok (b, s2) =>
          match a, b with
          | .int, .int => .ok (.bool :: s2, snaps)
          | .ptr, .ptr => .ok (.bool :: s2, snaps)
          | .char, .char => .ok (.bool :: s2, snaps)
          | .char, .int => .ok (.bool :: s2, snaps)
          | .int, .char => .ok (.bool :: s2, snaps)
          | _, _ => .error (.err (.invalidTypeForOp ">"))
    | .lte =>
      match popExpect [.int, .ptr, .char] "<=" stack with
      | .error e => .error e
      | .ok (a, s1) =>
        match popExpect [.int, .ptr, .char] "<=" s1 with
        | .error e => .error e
        | .ok (b, s2) =>
          match a, b with
          | .int, .int => .ok (.bool :: s2, snaps)
          | .ptr, .ptr => .ok (.bool :: s2, snaps)
          | .char, .char => .ok (.bool :: s2, snaps)
          | .char, .int => .ok (.bool :: s2, snaps)
          | .int, .char => .ok (.bool :: s2, snaps)
          | _, _ => .error (.err (.invalidTypeForOp "<="))
    | .gte =>
      match popExpect [.int, .ptr, .char] ">=" stack with
      | .error e => .error e
      | .ok (a, s1) =>
        match popExpect [.int, .ptr, .char] ">=" s1 with
        | .error e => .error e
        | .ok (b, s2) =>
          match a, b with
          | .int, .int => .ok (.bool :: s2, snaps)
          | .ptr, .ptr => .ok (.bool :: s2, snaps)
          | .char, .char => .ok (.bool :: s2, snaps)
          | .char, .int => .ok (.bool :: s2, snaps)
          | .int, .char => .ok (.bool :: s2, snaps)
          | _, _ => .error (.err (.invalidTypeForOp ">="))
    | .store =>
      match popExpect [.int, .char, .bool] "." stack with
      | .error e => .error e
      | .ok (_, s1) =>
        match popExpect [.ptr] "." s1 with
        | .error e => .error e
        | .ok (_, s2) => .ok (s2, snaps)
    | .store64 =>
      match popExpect [.int, .char, .bool] ".64" stack with
      | .error e => .error e
      | .ok (_, s1) =>
        match popExpect [.ptr] ".64" s1 with
        | .error e => .error e
        | .ok (_, s2) => .ok (s2, snaps)
    | .load =>
      match popExpect [.ptr] "," stack with
      | .error e => .error e
      | .ok (_, s1) => .ok (.int :: s1, snaps)
    | .load64 =>
      match popExpect [.ptr] ",64" stack with
      | .error e => .error e
      | .ok (_, s1) => .ok (.int :: s1, snaps)
    | .mod =>
      match popExpect [.int, .char, .ptr] "mod" stack with
      | .error e => .error e
      | .ok (a, s1) =>
        match popExpect [.int, .char] "mod" s1 with
        | .error e => .error e
        | .ok (b, s2) =>
          match a, b with
          | .int, .int => .ok (.int :: s2, snaps)
          | .char, .char => .ok (.char :: s2, snaps)
          | .char, .int => .ok (.char :: s2, snaps)
          | .int, .char => .ok (.int :: s2, snaps)
          | .ptr, .int => .ok (.ptr :: s2, snaps)
          | .ptr, .char => .ok (.ptr :: s2, snaps)
          | _, _ => .error (.err (.invalidTypeForOp "mod"))
  | .intrinsic i =>
    match i with
    | .argc => .ok (.int :: stack, snaps)
    | .argv => .ok (.ptr :: stack, snaps)
    | .print =>
      match requireN 1 stack with
      | .error e => .error e
      | .ok s1 => .ok (s1, snaps)
    | .panic =>
      match requireN 0 stack with
      | .error e => .error e
      | .ok s1 => .ok (s1, snaps)
    | .dup =>
      match stack with
      | [] => .error (.err .stackUnderflow)
      | a :: rest => .ok (a :: a :: rest, snaps)
    | .dup2 =>
      match stack with
      | a :: b :: rest => .ok (a :: b :: a :: b :: rest, snaps)
      | _ => .error (.err .stackUnderflow)
    | .swap =>
      match stack with
      | a :: b :: rest => .ok (b :: a :: rest, snaps)
      | _ => .error (.err .stackUnderflow)
    | .mem => .ok (.ptr :: stack, snaps)
    | .drop =>
      match requireN 1 stack with
      | .error e => .error e
      | .ok s1 => .ok (s1, snaps)
    | .drop2 =>
      match requireN 2 stack with
      | .error e => .error e
      | .ok s1 => .ok (s1, snaps)
    | .over =>
      match stack with
      | a :: b :: rest => .ok (b :: a :: b :: rest, snaps)
      | _ => .error (.err .stackUnderflow)
    | .castPtr =>
      match popExpect [.int] "cast(ptr)" stack with
      | .error e => .error e
      | .ok (_, s1) => .ok (.ptr :: s1, snaps)
    | .castInt =>
      match popExpect [.char, .ptr, .bool] "cast(int)" stack with
      | .error e => .error e
      | .ok (_, s1) => .ok (.int :: s1, snaps)
    | .here => .ok (.ptr :: .int :: stack, snaps)
  | .kw k =>
    match k with
    | .kwhile _ _ => .ok (stack, (stack, SnapKind.swhile) :: snaps)
    | .kdo _ =>
      match popExpect [.bool] "do" stack with
      | .error e => .error e
      | .ok (_, s1) =>
        match snaps with
        | [] => .error (.err .invalidLoop)
        | (snapStack, origin) :: srest =>
          match origin with
          | .swhile =>
            if s1 ≠ snapStack then .error (.err .invalidLoop)
            else .ok (s1, (s1, SnapKind.sdo) :: srest)
          | .sif => .ok (s1, (s1, SnapKind.sdo) :: srest)
          | _ => .error (.err .invalidLoop)
    | .kif => .ok (stack, (stack, SnapKind.sif) :: snaps)
    | .kelse _ _ =>
      match snaps with
      | [] => .error (.err .invalidElse)
      | (snapStack, origin) :: srest =>
        match origin with
        | .sdo => .ok (snapStack, (stack, SnapKind.selse) :: srest)
        | _ => .error (.err .invalidElse)
    | .kend _ _ =>
      match snaps with
      | [] => .error (.err .invalidEnd)
      | (snapStack, origin) :: srest =>
        match origin with
        | .sdo =>
          if stack ≠ snapStack then .error (.err .invalidEnd)
          else .ok (stack, srest)
        | .selse =>
          if stack ≠ snapStack then .error (.err .invalidEnd)
          else .ok (stack, srest)
        | _ => .error .panicked
    | .kelif _ _ => .error .panicked
    | .kmac => .error (.err .macInCode)
    | .kinc => .error (.err .incInCode)
  | .syscall s =>
    match requireN (syscallPops s) stack with
    | .error e => .error e
    | .ok s1 => .ok (.int :: s1, snaps)
  | .name _ => .error .panicked

/-- The main typechecking loop over the instruction array. -/
def typecheckGo : List Instruction → List ValType → List Snap →
    Except TCFailure (List ValType × List Snap)
  | [], stack, snaps => .ok (stack, snaps)
  | inst :: rest, stack, snaps =>
    match typecheckStep inst.kind stack snaps with
    | .error e => .error e
    | .ok (stack', snaps') => typecheckGo rest stack' snaps'

/-- The end-of-program stack check: more than one residual value, or a
single non-`Int` value, is `InvalidStack`. -/
def typecheckFinal (stack : List ValType) : Except TCFailure Unit :=
  if stack.length > 1 then .error (.err .invalidStack)
  else if stack.length = 1 && !(decide (stack.head? = some ValType.int)) then
    .error (.err .invalidStack)
  else .ok ()

def typecheck (prog : Program) : Except TCFailure Unit :=
  match typecheckGo prog.instructions [] [] with
  | .error e => .error e
  | .ok (stack, _) => typecheckFinal stack

/-- The exact `Add` acceptance table of the source, `(a, b)` being the
first- and second-popped operands (top of stack first): the amended claim.
Combinations outside the seven listed pairs — including two `Char`s, two
`Bool`s, two `Ptr`s, `Char`/`Bool` mixes and `Ptr` with `Char` or `Bool` —
fail with `InvalidTypeForOp`. -/
def addTransferSpec : ValType → ValType → Option ValType
  | .int, .int => some .int
  | .int, .ptr => some .ptr
  | .ptr, .int => some .ptr
  | .char, .int => some .char
  | .int, .char => some .int
  | .int, .bool => some .int
  | .bool, .int => some .int
  | _, _ => none

/-- The post-collection state of `macro f f end f`: the single instruction
`f` with macro `f` defined as `f`; a literal fixed point of `expand_macros`
on which every pass substitutes. -/
def selfRefProgram : Program :=
  { instructions := [{ kind := .name "f" }],
    macros := [("f", { mname := "f", body := [{ kind := .name "f" }] })] }

instance {ε : Type} {α : Type} [DecidableEq ε] [DecidableEq α] :
    DecidableEq (Except ε α) := fun a b =>
  match a, b with
  | .error x, .error y =>
    if h : x = y then .isTrue (by rw [h]) else .isFalse (fun hh => by cases hh; exact h rfl)
  | .ok x, .ok y =>
    if h : x = y then .isTrue (by rw [h]) else .isFalse (fun hh => by cases hh; exact h rfl)
  | .error _, .ok _ => .isFalse (fun hh => by cases hh)
  | .ok _, .error _ => .isFalse (fun hh => by cases hh)

/-! # Theorems

One theorem per claim of the specification review, with witnesses /
counterexamples as required. -/

/-! ## C3 — unclosed blocks at end of input -/

/-- C3: the spec says reaching the end of the instruction array with a
still-open block frame fails with an "unclosed block" error, but the
resolver performs no end-of-input check on its frame stack: on the program
`while do` (a `while/do` with no closing `end`) `jumps` returns success,
leaving the `Do`'s jump slot at its parse-time value.  The
`UnclosedBlock` variant exists in src/error.rs but is never constructed
anywhere in the codebase. -/
theorem jumps_open_block_returns_ok :
    jumps { instructions := [{ kind := .kw (.kwhile 0 0) }, { kind := .kw (.kdo 0) }] } =
      .ok { instructions :=
              [{ kind := .kw (.kwhile 0 0), ip := 0 }, { kind := .kw (.kdo 0), ip := 1 }] } := by
  decide

/-! ## C4 — `do` with no open frame -/

/-- C4: the spec says a `do` with no pushed `if`/`elif`/`while` frame fails
with a returned `UnexpectedKeyword` error; in fact, on a program whose
first instruction is `do`, macro collection (which runs before jump
resolution) executes `macro_stack.pop().unwrap()` on an empty stack and
panics, so preprocessing crashes instead of returning an error value.
(`jumps` does return `UnexpectedKeyword` when a frame of the wrong kind is
on the stack, but the empty-stack case panics there as well.) -/
theorem process_leading_do_panics :
    process (fun _ => none) { instructions := [{ kind := .kw (.kdo 0) }] } =
      .error .panicked := by
  decide

/-! ## C5 — the `Add` transfer rule -/

/-- C5 counterexample: with `Int` on top of the stack and `Char` below it
(the `(Int, Char)` operand order), `Add` yields `Int`, not the `Char` the
claim predicts for "either operand is `Char` and neither is `Ptr`". -/
theorem add_int_char_counterexample :
    typecheckStep (.op .add) [.int, .char] [] = .ok ([.int], []) ∧
      ValType.int ≠ ValType.char := by
  decide


/-- C5 (amended): the `Add` transfer rule yields `Ptr` when exactly one
operand is `Ptr` and the other `Int`, yields `Char` only for a `Char` on
top of an `Int`, yields `Int` for `(Int, Int)`, `(Int, Char)` and the
`Int`/`Bool` mixes, and fails with `InvalidTypeForOp` for every other
combination (in particular two `Ptr`s, and also `(Int, Char)` does not
yield `Char`). -/
theorem add_transfer_table (a b : ValType) (rest : List ValType) (snaps : List Snap) :
    typecheckStep (.op .add) (a :: b :: rest) snaps =
      match addTransferSpec a b with
      | some t => .ok (t :: rest, snaps)
      | none => .error (.err (.invalidTypeForOp "+")) := by
  cases a <;> cases b <;> rfl

/-! ## C6 — `Else` and the restored stack -/

/-- C6 counterexample: in `if 5 true do ... else`, the condition pushes an
extra `Int` between `If` and `Do`.  The snapshot captured at `If` is `[]`,
but after `Else` the live stack is `[Int]` — the stack captured at the
`Do` (after the `Bool` was popped), not the stack captured at the original
`If` as the claim states. -/
theorem else_restores_do_snapshot_counterexample :
    typecheckGo [{ kind := .kw .kif }] [] [] = .ok ([], [([], .sif)]) ∧
      typecheckGo [{ kind := .kw .kif }, { kind := .push (.int 5) },
          { kind := .push (.bool true) }, { kind := .kw (.kdo 0) },
          { kind := .kw (.kelse 0 0) }] [] [] =
        .ok ([.int], [([.int], .selse)]) ∧
      ([ValType.int] : List ValType) ≠ [] := by
  decide

/-- C6 (amended): `Do` (over an `If` snapshot) pushes a snapshot of the
stack *after* the condition's `Bool` has been popped, and `Else` pops the
pending `Do` snapshot, restores the live stack to that `Do` snapshot (the
shape the first arm started from — not the shape captured at the original
`If`, which differs whenever the condition changes the stack), and pushes
the finished arm's exit stack tagged `Else`. -/
theorem do_else_snapshot_transfer (s t ifSnap : List ValType) (srest : List Snap)
    (e1 e2 e3 : Nat) :
    typecheckStep (.kw (.kdo e1)) (.bool :: s) ((ifSnap, .sif) :: srest) =
        .ok (s, (s, .sdo) :: srest) ∧
      typecheckStep (.kw (.kelse e2 e3)) t ((s, .sdo) :: srest) =
        .ok (s, (t, .selse) :: srest) := by
  constructor <;> rfl

/-! ## Pipeline lemmas

Supporting lemmas about the preprocessor pipeline, shared by the claim
theorems below: the association-map operations, what a single
`expand_macros` / `collect_macros` step can do to its accumulators, what
survives a whole expansion pass, the include scan, and how the jump
resolver only ever rewrites slot payloads (`slotErase` images are
preserved). -/

theorem scanIncludes_cons (ip : Nat) (inst : Instruction) (rest : List Instruction) :
    scanIncludes ip (inst :: rest) =
      if inst.kind = .kw .kinc then
        match rest with
        | [] => .ok ([], [])
        | inst2 :: rest2 =>
          match includeArg inst2.kind with
          | some path =>
            match scanIncludes (ip + 2) rest2 with
            | .error e => .error e
            | .ok (kept, ps) => .ok (kept, (path, ip + 1) :: ps)
          | none => .error (.pre (.invalidInclude (kindString inst2.kind)))
      else
        match scanIncludes (ip + 1) rest with
        | .error e => .error e
        | .ok (kept, ps) => .ok (inst :: kept, ps) := by
  rw [scanIncludes.eq_def]

theorem mapGet_mapInsert (m : List (String × MacroDef)) (k : String) (v : MacroDef)
    (n : String) :
    mapGet (mapInsert m k v) n = if k = n then some v else mapGet m n := by
  induction m with
  | nil => simp [mapInsert, mapGet]
  | cons kv rest ih =>
    obtain ⟨k', v'⟩ := kv
    by_cases hk : k' = k
    · subst hk
      simp [mapInsert, mapGet]
      by_cases hn : k' = n <;> simp [hn]
    · simp [mapInsert, hk, mapGet, ih]
      by_cases hn : k' = n
      · subst hn
        have : ¬ (k = k') := fun hh => hk hh.symm
        simp [this]
      · simp [hn]

theorem expandStep_acc (macros : List (String × MacroDef)) (inst : Instruction)
    (st st' : ExpandSt) (h : expandStep macros inst.kind inst st = .ok st') :
    (st'.hasExpanded = st.hasExpanded ∧
      (st'.acc = st.acc ∨
        (st'.acc = st.acc ++ [inst] ∧ inst.kind ≠ .kw .kmac ∧
          (∀ n, inst.kind = .name n → mapGet macros n = none)))) ∨
    (st'.hasExpanded = true ∧
      ∃ n m, inst.kind = .name n ∧ mapGet macros n = some m ∧ st'.acc = st.acc ++ m.body) := by
  cases hk : inst.kind with
  | push v =>
    rw [hk] at h
    simp only [expandStep] at h
    cases h
    simp only [accPush]
    by_cases hm : st.inMacro <;> simp [hm, hk]
  | intrinsic i =>
    rw [hk] at h
    simp only [expandStep] at h
    cases h
    simp only [accPush]
    by_cases hm : st.inMacro <;> simp [hm, hk]
  | op o =>
    rw [hk] at h
    simp only [expandStep] at h
    cases h
    simp only [accPush]
    by_cases hm : st.inMacro <;> simp [hm, hk]
  | syscall s =>
    rw [hk] at h
    simp only [expandStep] at h
    cases h
    simp only [accPush]
    by_cases hm : st.inMacro <;> simp [hm, hk]
  | name n =>
    rw [hk] at h
    simp only [expandStep] at h
    by_cases hm : st.inMacro
    · simp only [hm] at h
      simp at h
      cases h
      simp [accPush, hm, hk]
    · simp only [hm] at h
      simp at h
      cases hg : mapGet macros n with
      | some m =>
        rw [hg] at h
        cases h
        right
        exact ⟨rfl, n, m, rfl, hg, rfl⟩
      | none =>
        rw [hg] at h
        cases h
        left
        refine ⟨rfl, Or.inr ⟨by simp [accPush, hm], by simp [hk], ?_⟩⟩
        intro n' hn'
        cases hn'
        exact hg
  | kw kk =>
    cases kk with
    | kmac =>
      rw [hk] at h
      simp only [expandStep] at h
      cases h
      simp
    | kwhile a b =>
      rw [hk] at h
      simp only [expandStep] at h
      cases h
      simp only [accPush]
      by_cases hm : st.inMacro <;> simp [hm, hk]
    | kif =>
      rw [hk] at h
      simp only [expandStep] at h
      cases h
      simp only [accPush]
      by_cases hm : st.inMacro <;> simp [hm, hk]
    | kdo e =>
      rw [hk] at h
      simp only [expandStep] at h
      cases hs : st.mstack with
      | nil => rw [hs] at h; cases h
      | cons t mrest =>
        rw [hs] at h
        cases h
        simp only [accPush]
        by_cases hm : st.inMacro <;> simp [hm, hk]
    | kelif a b =>
      rw [hk] at h
      simp only [expandStep] at h
      cases hs : st.mstack with
      | nil => rw [hs] at h; cases h
      | cons t mrest =>
        rw [hs] at h
        cases h
        simp only [accPush]
        by_cases hm : st.inMacro <;> simp [hm, hk]
    | kelse a b =>
      rw [hk] at h
      simp only [expandStep] at h
      cases hs : st.mstack with
      | nil => rw [hs] at h; cases h
      | cons t mrest =>
        rw [hs] at h
        cases h
        simp only [accPush]
        by_cases hm : st.inMacro <;> simp [hm, hk]
    | kend a w =>
      rw [hk] at h
      simp only [expandStep] at h
      cases hs : st.mstack with
      | nil => rw [hs] at h; cases h
      | cons t mrest =>
        rw [hs] at h
        have h' : (if (decide (t = Tag.tmac) && st.inMacro) = true then
              Except.ok (ExpandSt.mk mrest false st.acc st.hasExpanded)
            else Except.ok (ExpandSt.mk mrest st.inMacro
              (accPush st.inMacro st.acc inst) st.hasExpanded)) = Except.ok st' := h
        cases hb : (decide (t = Tag.tmac) && st.inMacro) with
        | true =>
          rw [hb] at h'
          simp only [if_pos] at h'
          cases h'
          simp
        | false =>
          rw [hb] at h'
          simp only [Bool.false_eq_true, if_false] at h'
          cases h'
          simp only [accPush]
          by_cases hm : st.inMacro <;> simp [hm, hk]
    | kinc =>
      rw [hk] at h
      simp only [expandStep] at h
      cases h
      simp only [accPush]
      by_cases hm : st.inMacro <;> simp [hm, hk]

theorem expandMacrosGo_flag_mono (macros : List (String × MacroDef)) :
    ∀ (l : List Instruction) (st : ExpandSt) (out : List Instruction) (b : Bool),
      st.hasExpanded = true → expandMacrosGo macros st l = .ok (out, b) → b = true := by
  intro l
  induction l with
  | nil =>
    intro st out b hf h
    rw [expandMacrosGo] at h
    cases h
    exact hf
  | cons inst rest ih =>
    intro st out b hf h
    rw [expandMacrosGo] at h
    cases hstep : expandStep macros inst.kind inst st with
    | error e => rw [hstep] at h; cases h
    | ok st' =>
      rw [hstep] at h
      rcases expandStep_acc macros inst st st' hstep with ⟨hfe, _⟩ | ⟨hfe, _⟩
      · exact ih st' out b (by rw [hfe, hf]) h
      · exact ih st' out b hfe h

theorem expandMacrosGo_names (macros : List (String × MacroDef)) :
    ∀ (l : List Instruction) (st : ExpandSt) (out : List Instruction),
      expandMacrosGo macros st l = .ok (out, false) →
      (∀ i ∈ st.acc, ∀ n, i.kind = .name n → mapGet macros n = none) →
      ∀ i ∈ out, ∀ n, i.kind = .name n → mapGet macros n = none := by
  intro l
  induction l with
  | nil =>
    intro st out h hacc
    rw [expandMacrosGo] at h
    simp at h
    obtain ⟨h1, h2⟩ := h
    subst h1
    exact hacc
  | cons inst rest ih =>
    intro st out h hacc
    rw [expandMacrosGo] at h
    cases hstep : expandStep macros inst.kind inst st with
    | error e => rw [hstep] at h; cases h
    | ok st' =>
      rw [hstep] at h
      rcases expandStep_acc macros inst st st' hstep with ⟨hfe, hca⟩ | ⟨hfe, _⟩
      · apply ih st' out h
        rcases hca with hca | ⟨hca, _, hname⟩
        · rw [hca]; exact hacc
        · rw [hca]
          intro i hi n hn
          rcases List.mem_append.mp hi with hi | hi
          · exact hacc i hi n hn
          · simp at hi; subst hi; exact hname n hn
      · have hb := expandMacrosGo_flag_mono macros rest st' out false hfe h
        cases hb

theorem expandMacrosGo_preserve (macros : List (String × MacroDef))
    (P : InstructionKind → Prop) :
    ∀ (l : List Instruction) (st : ExpandSt) (out : List Instruction) (b : Bool),
      expandMacrosGo macros st l = .ok (out, b) →
      (∀ i ∈ st.acc, P i.kind) →
      (∀ n m, mapGet macros n = some m → ∀ i ∈ m.body, P i.kind) →
      (∀ i ∈ l, i.kind = .kw .kmac ∨ P i.kind) →
      ∀ i ∈ out, P i.kind := by
  intro l
  induction l with
  | nil =>
    intro st out b h hacc hbody hl
    rw [expandMacrosGo] at h
    cases h
    exact hacc
  | cons inst rest ih =>
    intro st out b h hacc hbody hl
    rw [expandMacrosGo] at h
    cases hstep : expandStep macros inst.kind inst st with
    | error e => rw [hstep] at h; cases h
    | ok st' =>
      rw [hstep] at h
      have hltail : ∀ i ∈ rest, i.kind = .kw .kmac ∨ P i.kind :=
        fun i hi => hl i (List.mem_cons_of_mem _ hi)
      apply ih st' out b h ?_ hbody hltail
      rcases expandStep_acc macros inst st st' hstep with ⟨_, hca⟩ | ⟨_, n, m, _, hg, hca⟩
      · rcases hca with hca | ⟨hca, hnm, _⟩
        · rw [hca]; exact hacc
        · rw [hca]
          intro i hi
          rcases List.mem_append.mp hi with hi | hi
          · exact hacc i hi
          · have hhead := hl inst (List.mem_cons_self inst rest)
            simp at hi
            subst hi
            rcases hhead with hmm | hP
            · exact absurd hmm hnm
            · exact hP
      · rw [hca]
        intro i hi
        rcases List.mem_append.mp hi with hi | hi
        · exact hacc i hi
        · exact hbody n m hg i hi
theorem collectStep_chars (inst : Instruction) (st st' : CollectSt) (ip : Nat)
    (h : collectStep inst.kind inst st ip = .ok st') :
    (st'.macros = st.macros ∧
      (st'.body = st.body ∨ (st'.body = st.body ++ [inst] ∧ inst.kind ≠ .kw .kmac))) ∨
    (∃ sp, st'.macros = mapInsert st.macros st.mname
        { mname := st.mname, body := st.body, span := sp } ∧ st'.body = []) := by
  cases hk : inst.kind with
  | push v =>
    rw [hk] at h; simp only [collectStep] at h; cases h
    simp only [bodyPush]
    by_cases hm : st.inMacro <;> simp [hm, hk]
  | intrinsic i =>
    rw [hk] at h; simp only [collectStep] at h; cases h
    simp only [bodyPush]
    by_cases hm : st.inMacro <;> simp [hm, hk]
  | op o =>
    rw [hk] at h; simp only [collectStep] at h; cases h
    simp only [bodyPush]
    by_cases hm : st.inMacro <;> simp [hm, hk]
  | syscall s =>
    rw [hk] at h; simp only [collectStep] at h; cases h
    simp only [bodyPush]
    by_cases hm : st.inMacro <;> simp [hm, hk]
  | name n =>
    rw [hk] at h; simp only [collectStep] at h
    by_cases hc : st.inMacro && st.mname = ""
    · rw [if_pos hc] at h; cases h; simp
    · rw [if_neg hc] at h; cases h
      simp only [bodyPush]
      by_cases hm : st.inMacro <;> simp [hm, hk]
  | kw kk =>
    cases kk with
    | kmac =>
      rw [hk] at h; simp only [collectStep] at h; cases h; simp
    | kif =>
      rw [hk] at h; simp only [collectStep] at h; cases h
      simp only [bodyPush]
      by_cases hm : st.inMacro <;> simp [hm, hk]
    | kelif a b =>
      rw [hk] at h; simp only [collectStep] at h; cases h
      simp only [bodyPush]
      by_cases hm : st.inMacro <;> simp [hm, hk]
    | kelse a b =>
      rw [hk] at h; simp only [collectStep] at h; cases h
      simp only [bodyPush]
      by_cases hm : st.inMacro <;> simp [hm, hk]
    | kwhile a b =>
      rw [hk] at h; simp only [collectStep] at h; cases h
      simp only [bodyPush]
      by_cases hm : st.inMacro <;> simp [hm, hk]
    | kinc =>
      rw [hk] at h; simp only [collectStep] at h; cases h
      simp only [bodyPush]
      by_cases hm : st.inMacro <;> simp [hm, hk]
    | kdo e =>
      rw [hk] at h; simp only [collectStep] at h
      cases hs : st.mstack with
      | nil => rw [hs] at h; cases h
      | cons pr mrest =>
        obtain ⟨tg, si⟩ := pr
        rw [hs] at h; cases h
        simp only [bodyPush]
        by_cases hm : st.inMacro <;> simp [hm, hk]
    | kend a w =>
      rw [hk] at h; simp only [collectStep] at h
      cases hs : st.mstack with
      | nil => rw [hs] at h; cases h
      | cons pr mrest =>
        obtain ⟨tg, si⟩ := pr
        rw [hs] at h
        cases tg with
        | tmac =>
          have h' : (if st.inMacro = true then
                Except.ok (CollectSt.mk
                  (mapInsert st.macros st.mname
                    { mname := st.mname, body := st.body, span := (si, ip) })
                  [] "" mrest false)
              else Except.error (RunError.pre PreprocessorError.unexpectedMacroEnd)) = Except.ok st' := h
          by_cases hm : st.inMacro = true
          · rw [if_pos hm] at h'
            cases h'
            right
            exact ⟨(si, ip), rfl, rfl⟩
          · rw [if_neg hm] at h'
            cases h'
        | tif =>
          cases h
          simp only [bodyPush]
          by_cases hm : st.inMacro <;> simp [hm, hk]
        | telif =>
          cases h
          simp only [bodyPush]
          by_cases hm : st.inMacro <;> simp [hm, hk]
        | telse =>
          cases h
          simp only [bodyPush]
          by_cases hm : st.inMacro <;> simp [hm, hk]
        | twhile =>
          cases h
          simp only [bodyPush]
          by_cases hm : st.inMacro <;> simp [hm, hk]
        | tdo =>
          cases h
          simp only [bodyPush]
          by_cases hm : st.inMacro <;> simp [hm, hk]
        | tifdo =>
          cases h
          simp only [bodyPush]
          by_cases hm : st.inMacro <;> simp [hm, hk]
        | telifdo =>
          cases h
          simp only [bodyPush]
          by_cases hm : st.inMacro <;> simp [hm, hk]
        | twhiledo =>
          cases h
          simp only [bodyPush]
          by_cases hm : st.inMacro <;> simp [hm, hk]

theorem collectMacrosGo_bodies (P : InstructionKind → Prop) :
    ∀ (l : List Instruction) (st : CollectSt) (ip : Nat) (m' : List (String × MacroDef)),
      collectMacrosGo st ip l = .ok m' →
      (∀ n m, mapGet st.macros n = some m → ∀ i ∈ m.body, P i.kind) →
      (∀ i ∈ st.body, P i.kind) →
      (∀ i ∈ l, i.kind = .kw .kmac ∨ P i.kind) →
      ∀ n m, mapGet m' n = some m → ∀ i ∈ m.body, P i.kind := by
  intro l
  induction l with
  | nil =>
    intro st ip m' h hmac hbody hl
    rw [collectMacrosGo] at h
    cases h
    exact hmac
  | cons inst rest ih =>
    intro st ip m' h hmac hbody hl
    rw [collectMacrosGo] at h
    cases hstep : collectStep inst.kind inst st ip with
    | error e => rw [hstep] at h; cases h
    | ok st' =>
      rw [hstep] at h
      have hltail : ∀ i ∈ rest, i.kind = .kw .kmac ∨ P i.kind :=
        fun i hi => hl i (List.mem_cons_of_mem _ hi)
      apply ih st' (ip + 1) m' h ?_ ?_ hltail
      all_goals
        rcases collectStep_chars inst st st' ip hstep with ⟨hmx, hbx⟩ | ⟨sp, hmx, hbx⟩
      · rw [hmx]; exact hmac
      · rw [hmx]
        intro n m hg i hi
        rw [mapGet_mapInsert] at hg
        by_cases hn : st.mname = n
        · rw [if_pos hn] at hg
          cases hg
          exact hbody i hi
        · rw [if_neg hn] at hg
          exact hmac n m hg i hi
      · rcases hbx with hbx | ⟨hbx, hnm⟩
        · rw [hbx]; exact hbody
        · rw [hbx]
          intro i hi
          rcases List.mem_append.mp hi with hi | hi
          · exact hbody i hi
          · have hhead := hl inst (List.mem_cons_self inst rest)
            simp at hi
            subst hi
            rcases hhead with hmm | hP
            · exact absurd hmm hnm
            · exact hP
      · rw [hbx]
        intro i hi
        simp at hi
theorem includesRun_succ (fs : Fs) (fuel : Nat) (instrs : List Instruction) :
    includesRun fs (fuel + 1) instrs =
      match scanIncludes 0 instrs with
      | .error e => .error e
      | .ok (kept, ps) =>
        match ps.find? (fun pq => (fs pq.1).isNone) with
        | some pq => .error (.pre (.includeNotFound pq.1))
        | none =>
          match ps.foldl (includeSubStep fs fuel) (Except.ok []) with
          | .error e => .error e
          | .ok subs => .ok (kept ++ subs) := by
  rw [includesRun.eq_def]
  rfl

theorem foldl_includeSubStep_error (fs : Fs) (fuel : Nat) (e : RunError) :
    ∀ ps : List (String × Nat),
      ps.foldl (includeSubStep fs fuel) (.error e) = .error e := by
  intro ps
  induction ps with
  | nil => rfl
  | cons pq rest ih => simpa [includeSubStep] using ih

theorem scanIncludes_kept_no_inc : ∀ (ip : Nat) (l : List Instruction)
    (kept : List Instruction) (ps : List (String × Nat)),
    scanIncludes ip l = .ok (kept, ps) → ∀ i ∈ kept, i.kind ≠ .kw .kinc := by
  intro ip l
  induction ip, l using scanIncludes.induct with
  | case1 ip =>
    intro kept ps h i hi
    rw [scanIncludes] at h
    cases h
    simp at hi
  | case2 ip inst2 hk =>
    intro kept ps h i hi
    rw [scanIncludes_cons, if_pos hk] at h
    cases h
    simp at hi
  | case3 ip inst2 hk inst3 rest2 path harg e herr ih =>
    intro kept ps h i hi
    rw [scanIncludes_cons, if_pos hk] at h
    simp only [harg, herr] at h
    cases h
  | case4 ip inst2 hk inst3 rest2 path harg kept' ps' hok ih =>
    intro kept ps h i hi
    rw [scanIncludes_cons, if_pos hk] at h
    simp only [harg, hok] at h
    cases h
    exact ih kept' ps' hok i hi
  | case5 ip inst2 hk inst3 rest2 harg =>
    intro kept ps h i hi
    rw [scanIncludes_cons, if_pos hk] at h
    simp only [harg] at h
    cases h
  | case6 ip inst2 rest2 hnk e herr ih =>
    intro kept ps h i hi
    rw [scanIncludes_cons, if_neg hnk, herr] at h
    cases h
  | case7 ip inst2 rest2 hnk kept' ps' hok ih =>
    intro kept ps h i hi
    rw [scanIncludes_cons, if_neg hnk, hok] at h
    cases h
    rcases List.mem_cons.mp hi with h1 | h1
    · subst h1; exact hnk
    · exact ih kept' ps' hok i h1

theorem includesRun_no_inc (fs : Fs) :
    ∀ (fuel : Nat) (instrs out : List Instruction),
      includesRun fs fuel instrs = .ok out → ∀ i ∈ out, i.kind ≠ .kw .kinc := by
  intro fuel
  induction fuel with
  | zero => intro instrs out h; rw [includesRun] at h; cases h
  | succ fuel ih =>
    intro instrs out h
    rw [includesRun_succ] at h
    cases hscan : scanIncludes 0 instrs with
    | error e => rw [hscan] at h; cases h
    | ok kp =>
      obtain ⟨kept, ps⟩ := kp
      simp only [hscan] at h
      cases hfind : ps.find? (fun pq => (fs pq.1).isNone) with
      | some pq => simp only [hfind] at h; cases h
      | none =>
        simp only [hfind] at h
        cases hfold : ps.foldl (includeSubStep fs fuel) (Except.ok []) with
        | error e => simp only [hfold] at h; cases h
        | ok subs =>
          simp only [hfold] at h
          cases h
          have hkept := scanIncludes_kept_no_inc 0 instrs kept ps hscan
          have hsubs : ∀ i ∈ subs, i.kind ≠ .kw .kinc := by
            clear hfind hscan
            have haux : ∀ (qs : List (String × Nat)) (acc res : List Instruction),
                qs.foldl (includeSubStep fs fuel) (.ok acc) = .ok res →
                (∀ i ∈ acc, i.kind ≠ .kw .kinc) → ∀ i ∈ res, i.kind ≠ .kw .kinc := by
              intro qs
              induction qs with
              | nil =>
                intro acc res hq hacc
                cases hq
                exact hacc
              | cons pq rest ihq =>
                intro acc res hq hacc
                rw [List.foldl_cons] at hq
                cases hfs : fs pq.1 with
                | none =>
                  rw [show includeSubStep fs fuel (Except.ok acc) pq =
                        .error (.pre (.includeNotFound pq.1)) by
                      simp [includeSubStep, hfs]] at hq
                  rw [foldl_includeSubStep_error] at hq
                  cases hq
                | some sub =>
                  cases hrec : includesRun fs fuel (hereSubst sub) with
                  | error e =>
                    rw [show includeSubStep fs fuel (Except.ok acc) pq = .error e by
                        simp [includeSubStep, hfs, hrec]] at hq
                    rw [foldl_includeSubStep_error] at hq
                    cases hq
                  | ok subOut =>
                    rw [show includeSubStep fs fuel (Except.ok acc) pq = .ok (acc ++ subOut) by
                        simp [includeSubStep, hfs, hrec]] at hq
                    refine ihq (acc ++ subOut) res hq ?_
                    intro i hi
                    rcases List.mem_append.mp hi with hi | hi
                    · exact hacc i hi
                    · exact ih (hereSubst sub) subOut hrec i hi
            exact haux ps [] subs hfold (by intro i hi; simp at hi)
          intro i hi
          rcases List.mem_append.mp hi with hi | hi
          · exact hkept i hi
          · exact hsubs i hi
theorem expandMacros_inv (prog p' : Program) (b : Bool)
    (h : expandMacros prog = .ok (p', b)) :
    p'.macros = prog.macros ∧
      expandMacrosGo prog.macros {} prog.instructions = .ok (p'.instructions, b) := by
  unfold expandMacros at h
  cases hgo : expandMacrosGo prog.macros {} prog.instructions with
  | error e => rw [hgo] at h; cases h
  | ok ob =>
    obtain ⟨out, he⟩ := ob
    rw [hgo] at h
    cases h
    exact ⟨rfl, rfl⟩

theorem expandLoop_final : ∀ (rem : Nat) (prog out : Program),
    expandLoop rem prog = .ok out →
    out.macros = prog.macros ∧
      ∃ src, expandMacrosGo prog.macros {} src = .ok (out.instructions, false) := by
  intro rem
  induction rem with
  | zero =>
    intro prog out h
    rw [expandLoop] at h
    cases hexp : expandMacros prog with
    | error e => rw [hexp] at h; cases h
    | ok pb =>
      obtain ⟨p', he⟩ := pb
      rw [hexp] at h
      cases he with
      | true => simp at h
      | false =>
        simp at h
        subst h
        obtain ⟨hm, hgo⟩ := expandMacros_inv prog p' false hexp
        exact ⟨hm, prog.instructions, hgo⟩
  | succ r ih =>
    intro prog out h
    rw [expandLoop] at h
    cases hexp : expandMacros prog with
    | error e => rw [hexp] at h; cases h
    | ok pb =>
      obtain ⟨p', he⟩ := pb
      rw [hexp] at h
      cases he with
      | true =>
        simp at h
        obtain ⟨hm, hgo⟩ := expandMacros_inv prog p' true hexp
        obtain ⟨hm2, src, hsrc⟩ := ih p' out h
        rw [hm] at hm2
        rw [hm] at hsrc
        exact ⟨hm2, src, hsrc⟩
      | false =>
        simp at h
        subst h
        obtain ⟨hm, hgo⟩ := expandMacros_inv prog p' false hexp
        exact ⟨hm, prog.instructions, hgo⟩

theorem expandLoop_kinc : ∀ (rem : Nat) (prog out : Program),
    expandLoop rem prog = .ok out →
    (∀ n m, mapGet prog.macros n = some m → ∀ i ∈ m.body, i.kind ≠ .kw .kinc) →
    (∀ i ∈ prog.instructions, i.kind ≠ .kw .kinc) →
    ∀ i ∈ out.instructions, i.kind ≠ .kw .kinc := by
  intro rem
  induction rem with
  | zero =>
    intro prog out h hbody hin
    rw [expandLoop] at h
    cases hexp : expandMacros prog with
    | error e => rw [hexp] at h; cases h
    | ok pb =>
      obtain ⟨p', he⟩ := pb
      rw [hexp] at h
      cases he with
      | true => simp at h
      | false =>
        simp at h
        subst h
        obtain ⟨hm, hgo⟩ := expandMacros_inv prog p' false hexp
        exact expandMacrosGo_preserve prog.macros (fun k => k ≠ .kw .kinc)
          prog.instructions {} p'.instructions false hgo
          (by intro i hi; simp [ExpandSt.acc] at hi) hbody
          (fun i hi => Or.inr (hin i hi))
  | succ r ih =>
    intro prog out h hbody hin
    rw [expandLoop] at h
    cases hexp : expandMacros prog with
    | error e => rw [hexp] at h; cases h
    | ok pb =>
      obtain ⟨p', he⟩ := pb
      rw [hexp] at h
      cases he with
      | true =>
        simp at h
        obtain ⟨hm, hgo⟩ := expandMacros_inv prog p' true hexp
        have hmid : ∀ i ∈ p'.instructions, i.kind ≠ .kw .kinc :=
          expandMacrosGo_preserve prog.macros (fun k => k ≠ .kw .kinc)
            prog.instructions {} p'.instructions true hgo
            (by intro i hi; simp [ExpandSt.acc] at hi) hbody
            (fun i hi => Or.inr (hin i hi))
        exact ih p' out h (by rw [hm]; exact hbody) hmid
      | false =>
        simp at h
        subst h
        obtain ⟨hm, hgo⟩ := expandMacros_inv prog p' false hexp
        exact expandMacrosGo_preserve prog.macros (fun k => k ≠ .kw .kinc)
          prog.instructions {} p'.instructions false hgo
          (by intro i hi; simp [ExpandSt.acc] at hi) hbody
          (fun i hi => Or.inr (hin i hi))

theorem ipsAssignGo_mem : ∀ (l : List Instruction) (ip : Nat),
    ∀ i ∈ ipsAssignGo ip l, ∃ i0 ∈ l, i.kind = i0.kind := by
  intro l
  induction l with
  | nil => intro ip i hi; simp [ipsAssignGo] at hi
  | cons inst rest ih =>
    intro ip i hi
    rw [ipsAssignGo] at hi
    rcases List.mem_cons.mp hi with h1 | h1
    · exact ⟨inst, List.mem_cons_self inst rest, by rw [h1]⟩
    · obtain ⟨i0, hi0, hk⟩ := ih (ip + 1) i h1
      exact ⟨i0, List.mem_cons_of_mem _ hi0, hk⟩
theorem slotErase_patchKind (k : InstructionKind) (f : SlotField) (v : Nat) :
    slotErase (patchKind k f v) = slotErase k := by
  cases f <;> cases k <;> first | rfl | (rename_i kk; cases kk <;> rfl)

theorem slotErase_setEndWhile (k : InstructionKind) (w : Option Nat) :
    slotErase (setEndWhile k w) = slotErase k := by
  cases k <;> first | rfl | (rename_i kk; cases kk <;> rfl)

theorem slotErase_eq_kmac (k : InstructionKind) (h : slotErase k = .kw .kmac) :
    k = .kw .kmac := by
  cases k with
  | kw kk => cases kk <;> simp_all [slotErase]
  | _ => simp_all [slotErase]

theorem slotErase_eq_kinc (k : InstructionKind) (h : slotErase k = .kw .kinc) :
    k = .kw .kinc := by
  cases k with
  | kw kk => cases kk <;> simp_all [slotErase]
  | _ => simp_all [slotErase]

theorem slotErase_eq_name (k : InstructionKind) (n : String)
    (h : slotErase k = .name n) : k = .name n := by
  cases k with
  | kw kk => cases kk <;> simp_all [slotErase]
  | _ => simp_all [slotErase]

theorem mem_slotWrite (l : List Instruction) (s : Slot) (v : Nat) :
    ∀ i ∈ slotWrite l s v, ∃ i0 ∈ l, slotErase i.kind = slotErase i0.kind := by
  unfold slotWrite
  cases hg : l[s.1]? with
  | none => intro i hi; exact ⟨i, hi, rfl⟩
  | some inst =>
    intro i hi
    rcases List.mem_or_eq_of_mem_set hi with h1 | h1
    · exact ⟨i, h1, rfl⟩
    · subst h1
      exact ⟨inst, List.getElem?_mem hg, slotErase_patchKind inst.kind s.2 v⟩

theorem mem_patchElifs : ∀ (elifs : List Slot) (l : List Instruction) (v : Nat),
    ∀ i ∈ patchElifs l elifs v, ∃ i0 ∈ l, slotErase i.kind = slotErase i0.kind := by
  intro elifs
  induction elifs with
  | nil => intro l v i hi; exact ⟨i, hi, rfl⟩
  | cons s rest ih =>
    intro l v i hi
    rw [patchElifs] at hi
    obtain ⟨i1, hi1, he1⟩ := ih (slotWrite l s v) v i hi
    obtain ⟨i0, hi0, he0⟩ := mem_slotWrite l s v i1 hi1
    exact ⟨i0, hi0, he1.trans he0⟩
theorem jumpsStep_done_shape (inst : Instruction) (st st' : JumpSt) (ip : Nat)
    (h : jumpsStep inst.kind inst st ip = .ok st') :
    ∀ i ∈ st'.done, (∃ i0 ∈ st.done, slotErase i.kind = slotErase i0.kind) ∨
      slotErase i.kind = slotErase inst.kind := by
  cases hk : inst.kind with
  | push v =>
    rw [hk] at h; simp only [jumpsStep] at h; cases h
    intro i hi
    rcases List.mem_append.mp hi with hi | hi
    · exact Or.inl ⟨i, hi, rfl⟩
    · simp at hi; subst hi; right; first | rfl | rw [hk]
  | intrinsic ii =>
    rw [hk] at h; simp only [jumpsStep] at h; cases h
    intro i hi
    rcases List.mem_append.mp hi with hi | hi
    · exact Or.inl ⟨i, hi, rfl⟩
    · simp at hi; subst hi; right; first | rfl | rw [hk]
  | op o =>
    rw [hk] at h; simp only [jumpsStep] at h; cases h
    intro i hi
    rcases List.mem_append.mp hi with hi | hi
    · exact Or.inl ⟨i, hi, rfl⟩
    · simp at hi; subst hi; right; first | rfl | rw [hk]
  | name n =>
    rw [hk] at h; simp only [jumpsStep] at h; cases h
    intro i hi
    rcases List.mem_append.mp hi with hi | hi
    · exact Or.inl ⟨i, hi, rfl⟩
    · simp at hi; subst hi; right; first | rfl | rw [hk]
  | syscall sc =>
    rw [hk] at h; simp only [jumpsStep] at h; cases h
    intro i hi
    rcases List.mem_append.mp hi with hi | hi
    · exact Or.inl ⟨i, hi, rfl⟩
    · simp at hi; subst hi; right; first | rfl | rw [hk]
  | kw kk =>
    cases kk with
    | kmac =>
      rw [hk] at h; simp only [jumpsStep] at h; cases h
      intro i hi
      rcases List.mem_append.mp hi with hi | hi
      · exact Or.inl ⟨i, hi, rfl⟩
      · simp at hi; subst hi; right; first | rfl | rw [hk]
    | kinc =>
      rw [hk] at h; simp only [jumpsStep] at h; cases h
      intro i hi
      rcases List.mem_append.mp hi with hi | hi
      · exact Or.inl ⟨i, hi, rfl⟩
      · simp at hi; subst hi; right; first | rfl | rw [hk]
    | kif =>
      rw [hk] at h; simp only [jumpsStep] at h; cases h
      intro i hi
      rcases List.mem_append.mp hi with hi | hi
      · exact Or.inl ⟨i, hi, rfl⟩
      · simp at hi; subst hi; right; first | rfl | rw [hk]
    | kwhile a d =>
      rw [hk] at h; simp only [jumpsStep] at h; cases h
      intro i hi
      rcases List.mem_append.mp hi with hi | hi
      · exact Or.inl ⟨i, hi, rfl⟩
      · simp at hi; subst hi; right; first | rfl | rw [hk]
    | kelif a e =>
      rw [hk] at h
      cases hs : st.stack with
      | nil => simp only [jumpsStep, hs] at h; cases h
      | cons fr srest =>
        simp only [jumpsStep, hs] at h
        cases ht : fr.tag <;> rw [ht] at h <;>
          first
          | exact Except.noConfusion h
          | (cases hsa : fr.slotA with
             | none => rw [hsa] at h; cases h
             | some sl =>
               rw [hsa] at h
               cases h
               intro i hi
               rcases List.mem_append.mp hi with hi | hi
               · exact Or.inl (mem_slotWrite st.done sl ip i hi)
               · simp at hi; subst hi; right; first | rfl | rw [hk])
    | kelse a e =>
      rw [hk] at h
      cases hs : st.stack with
      | nil => simp only [jumpsStep, hs] at h; cases h
      | cons fr srest =>
        simp only [jumpsStep, hs] at h
        cases ht : fr.tag <;> rw [ht] at h <;>
          first
          | exact Except.noConfusion h
          | (cases hsa : fr.slotA with
             | none => rw [hsa] at h; cases h
             | some sl =>
               rw [hsa] at h
               cases h
               intro i hi
               rcases List.mem_append.mp hi with hi | hi
               · exact Or.inl (mem_slotWrite st.done sl ip i hi)
               · simp at hi; subst hi; right; first | rfl | rw [hk])
    | kdo e =>
      rw [hk] at h
      cases hs : st.stack with
      | nil => simp only [jumpsStep, hs] at h; cases h
      | cons fr srest =>
        simp only [jumpsStep, hs] at h
        cases ht : fr.tag <;> rw [ht] at h <;>
          first
          | exact Except.noConfusion h
          | (cases h
             intro i hi
             rcases List.mem_append.mp hi with hi | hi
             · exact Or.inl ⟨i, hi, rfl⟩
             · simp at hi; subst hi; right; first | rfl | rw [hk])
    | kend a w =>
      rw [hk] at h
      cases hs : st.stack with
      | nil => simp only [jumpsStep, hs] at h; cases h
      | cons fr srest =>
        simp only [jumpsStep, hs] at h
        cases ht : fr.tag with
        | telse =>
          rw [ht] at h
          cases hsa : fr.slotA with
          | none => rw [hsa] at h; cases h
          | some sl =>
            rw [hsa] at h
            cases h
            intro i hi
            rcases List.mem_append.mp hi with hi | hi
            · obtain ⟨i1, hi1, he1⟩ :=
                mem_patchElifs st.elifs (slotWrite st.done sl ip) ip i hi
              obtain ⟨i0, hi0, he0⟩ := mem_slotWrite st.done sl ip i1 hi1
              exact Or.inl ⟨i0, hi0, he1.trans he0⟩
            · simp at hi; subst hi; right; first | rfl | rw [hk]
        | telifdo =>
          rw [ht] at h
          cases hsa : fr.slotA with
          | none => rw [hsa] at h; cases h
          | some sl =>
            rw [hsa] at h
            cases h
            intro i hi
            rcases List.mem_append.mp hi with hi | hi
            · obtain ⟨i1, hi1, he1⟩ :=
                mem_patchElifs st.elifs (slotWrite st.done sl ip) ip i hi
              obtain ⟨i0, hi0, he0⟩ := mem_slotWrite st.done sl ip i1 hi1
              exact Or.inl ⟨i0, hi0, he1.trans he0⟩
            · simp at hi; subst hi; right; first | rfl | rw [hk]
        | tifdo =>
          rw [ht] at h
          cases hsa : fr.slotA with
          | none => rw [hsa] at h; cases h
          | some sl =>
            rw [hsa] at h
            cases h
            intro i hi
            rcases List.mem_append.mp hi with hi | hi
            · exact Or.inl (mem_slotWrite st.done sl ip i hi)
            · simp at hi; subst hi; right; first | rfl | rw [hk]
        | twhiledo =>
          rw [ht] at h
          cases hsa : fr.slotA with
          | none => rw [hsa] at h; cases h
          | some sl =>
            rw [hsa] at h
            cases h
            intro i hi
            rcases List.mem_append.mp hi with hi | hi
            · exact Or.inl (mem_slotWrite st.done sl ip i hi)
            · simp at hi; subst hi
              right
              exact (slotErase_setEndWhile (InstructionKind.kw (Keyword.kend ip w)) _).trans rfl
        | tmac => rw [ht] at h; cases h
        | tif => rw [ht] at h; cases h
        | telif => rw [ht] at h; cases h
        | twhile => rw [ht] at h; cases h
        | tdo => rw [ht] at h; cases h

theorem jumpsGo_shape : ∀ (l : List Instruction) (st : JumpSt) (ip : Nat)
    (out : List Instruction),
    jumpsGo st ip l = .ok out →
    ∀ i ∈ out, (∃ i0 ∈ st.done, slotErase i.kind = slotErase i0.kind) ∨
      (∃ i0 ∈ l, slotErase i.kind = slotErase i0.kind) := by
  intro l
  induction l with
  | nil =>
    intro st ip out h i hi
    rw [jumpsGo] at h
    cases h
    exact Or.inl ⟨i, hi, rfl⟩
  | cons inst0 rest ih =>
    intro st ip out h i hi
    rw [jumpsGo] at h
    cases hstep : jumpsStep ({ inst0 with ip := ip } : Instruction).kind
        { inst0 with ip := ip } st ip with
    | error e => rw [hstep] at h; cases h
    | ok st' =>
      rw [hstep] at h
      rcases ih st' (ip + 1) out h i hi with hdone | ⟨i0, hi0, he0⟩
      · obtain ⟨i1, hi1, he1⟩ := hdone
        rcases jumpsStep_done_shape { inst0 with ip := ip } st st' ip hstep i1 hi1 with
          ⟨i0, hi0, he0⟩ | hcur
        · exact Or.inl ⟨i0, hi0, he1.trans he0⟩
        · exact Or.inr ⟨inst0, List.mem_cons_self inst0 rest, he1.trans hcur⟩
      · exact Or.inr ⟨i0, List.mem_cons_of_mem _ hi0, he0⟩

/-! ## C1 — where included instructions land -/


theorem scanIncludes_no_inc (l : List Instruction)
    (h : ∀ i ∈ l, i.kind ≠ .kw .kinc) :
    ∀ ip, scanIncludes ip l = .ok (l, []) := by
  induction l with
  | nil => intro ip; rfl
  | cons inst rest ih =>
    intro ip
    have h1 : inst.kind ≠ .kw .kinc := h inst (List.mem_cons_self inst rest)
    have h2 : ∀ i ∈ rest, i.kind ≠ .kw .kinc := fun i hi => h i (List.mem_cons_of_mem _ hi)
    rw [scanIncludes_cons, if_neg h1, ih h2 (ip + 1)]

/-- C1 counterexample: on the program `include "lib" 1` over a file system
where `lib` parses to the single instruction `2`, include resolution
returns `1 2` — the instruction that textually followed the include comes
*before* the included instructions, not after them as the claim's
splice-in-place reading requires. -/
theorem includes_splice_counterexample :
    includesRun
        (fun q => if q = "lib" then some [{ kind := .push (.int 2) }] else none) 101
        [{ kind := .kw .kinc }, { kind := .push (.str "lib") },
          { kind := .push (.int 1) }] =
      .ok [{ kind := .push (.int 1) }, { kind := .push (.int 2) }] ∧
      ([{ kind := .push (.int 1) }, { kind := .push (.int 2) }] : List Instruction) ≠
        [{ kind := .push (.int 2) }, { kind := .push (.int 1) }] := by
  constructor
  · decide
  · decide


theorem scanIncludes_append : ∀ (ip : Nat) (A : List Instruction),
    ∀ (kA : List Instruction) (pA : List (String × Nat)),
      scanIncludes ip A = .ok (kA, pA) →
      (∀ la, A.getLast? = some la → la.kind ≠ .kw .kinc) →
      ∀ (rest kR : List Instruction) (pR : List (String × Nat)),
        scanIncludes (ip + A.length) rest = .ok (kR, pR) →
        scanIncludes ip (A ++ rest) = .ok (kA ++ kR, pA ++ pR) := by
  intro ip A
  induction ip, A using scanIncludes.induct with
  | case1 ip =>
    intro kA pA h hlast rest kR pR hR
    rw [scanIncludes] at h
    cases h
    simpa using hR
  | case2 ip inst2 hk =>
    intro kA pA h hlast rest kR pR hR
    exact absurd hk (hlast inst2 rfl)
  | case3 ip inst2 hk inst3 rest2 path harg e herr ih =>
    intro kA pA h hlast rest kR pR hR
    rw [scanIncludes_cons, if_pos hk] at h
    simp only [harg, herr] at h
    cases h
  | case4 ip inst2 hk inst3 rest2 path harg kept' ps' hok ih =>
    intro kA pA h hlast rest kR pR hR
    rw [scanIncludes_cons, if_pos hk] at h
    simp only [harg, hok] at h
    cases h
    have hlast' : ∀ la, rest2.getLast? = some la → la.kind ≠ .kw .kinc := by
      intro la hla
      cases rest2 with
      | nil => cases hla
      | cons y ys =>
        apply hlast la
        rw [List.getLast?_cons_cons, List.getLast?_cons_cons]
        exact hla
    have heq : ip + (inst2 :: inst3 :: rest2).length = ip + 2 + rest2.length := by
      simp [List.length_cons]
      omega
    rw [heq] at hR
    have hih := ih kept' ps' hok hlast' rest kR pR hR
    rw [List.cons_append, List.cons_append, scanIncludes_cons, if_pos hk]
    simp only [harg, hih]
    rfl
  | case5 ip inst2 hk inst3 rest2 harg =>
    intro kA pA h hlast rest kR pR hR
    rw [scanIncludes_cons, if_pos hk] at h
    simp only [harg] at h
    cases h
  | case6 ip inst2 rest2 hnk e herr ih =>
    intro kA pA h hlast rest kR pR hR
    rw [scanIncludes_cons, if_neg hnk, herr] at h
    cases h
  | case7 ip inst2 rest2 hnk kept' ps' hok ih =>
    intro kA pA h hlast rest kR pR hR
    rw [scanIncludes_cons, if_neg hnk, hok] at h
    cases h
    have hlast' : ∀ la, rest2.getLast? = some la → la.kind ≠ .kw .kinc := by
      intro la hla
      cases rest2 with
      | nil => cases hla
      | cons y ys =>
        apply hlast la
        rw [List.getLast?_cons_cons]
        exact hla
    have heq : ip + (inst2 :: rest2).length = ip + 1 + rest2.length := by
      simp [List.length_cons]
      omega
    rw [heq] at hR
    have hih := ih kept' ps' hok hlast' rest kR pR hR
    rw [List.cons_append, scanIncludes_cons, if_neg hnk]
    simp only [hih]
    rfl

theorem foldl_includeSubStep_shift (fs : Fs) (fuel : Nat) :
    ∀ (ps : List (String × Nat)) (pre mid subs : List Instruction),
      ps.foldl (includeSubStep fs fuel) (.ok mid) = .ok subs →
      ps.foldl (includeSubStep fs fuel) (.ok (pre ++ mid)) = .ok (pre ++ subs) := by
  intro ps
  induction ps with
  | nil =>
    intro pre mid subs h
    cases h
    rfl
  | cons pq rest ih =>
    intro pre mid subs h
    rw [List.foldl_cons] at h ⊢
    cases hfs : fs pq.1 with
    | none =>
      rw [show includeSubStep fs fuel (Except.ok mid) pq =
            .error (.pre (.includeNotFound pq.1)) from by
          simp [includeSubStep, hfs]] at h
      rw [foldl_includeSubStep_error] at h
      cases h
    | some sub =>
      cases hrec : includesRun fs fuel (hereSubst sub) with
      | error e =>
        rw [show includeSubStep fs fuel (Except.ok mid) pq = .error e from by
            simp [includeSubStep, hfs, hrec]] at h
        rw [foldl_includeSubStep_error] at h
        cases h
      | ok subOut =>
        rw [show includeSubStep fs fuel (Except.ok mid) pq = .ok (mid ++ subOut) from by
            simp [includeSubStep, hfs, hrec]] at h
        rw [show includeSubStep fs fuel (Except.ok (pre ++ mid)) pq =
              .ok (pre ++ (mid ++ subOut)) from by
            simp [includeSubStep, hfs, hrec]]
        exact ih pre (mid ++ subOut) subs h

theorem foldl_includeSubStep_reads (fs : Fs) (fuel : Nat) :
    ∀ (ps : List (String × Nat)) (mid subs : List Instruction),
      ps.foldl (includeSubStep fs fuel) (.ok mid) = .ok subs →
      ∀ pq ∈ ps, (fs pq.1).isNone = false := by
  intro ps
  induction ps with
  | nil =>
    intro mid subs _ pq hpq
    cases hpq
  | cons pq0 rest ih =>
    intro mid subs h pq hpq
    rw [List.foldl_cons] at h
    cases hfs : fs pq0.1 with
    | none =>
      rw [show includeSubStep fs fuel (Except.ok mid) pq0 =
            .error (.pre (.includeNotFound pq0.1)) from by
          simp [includeSubStep, hfs]] at h
      rw [foldl_includeSubStep_error] at h
      cases h
    | some sub =>
      cases hrec : includesRun fs fuel (hereSubst sub) with
      | error e =>
        rw [show includeSubStep fs fuel (Except.ok mid) pq0 = .error e from by
            simp [includeSubStep, hfs, hrec]] at h
        rw [foldl_includeSubStep_error] at h
        cases h
      | ok subOut =>
        rw [show includeSubStep fs fuel (Except.ok mid) pq0 = .ok (mid ++ subOut) from by
            simp [includeSubStep, hfs, hrec]] at h
        rcases List.mem_cons.mp hpq with h1 | h1
        · subst h1
          rw [hfs]
          rfl
        · exact ih (mid ++ subOut) subs h pq h1

/-- C1 (amended): for every program in which a recognized `include "<p>"`
pair occurs — in general position `A ++ include "<p>" ++ B`, with further
includes allowed both in `A` and in `B` — include resolution parses `p`'s
file as a fresh sub-program, recursively preprocesses it
(here-substitution and include resolution), removes the pair, and
*appends* the result at the END of the including program's array: after
all kept instructions (including those of `B`, which textually followed
the include), between the processed contents of `A`'s includes and those
of `B`'s includes. -/
theorem includes_appends_included_file (fs : Fs) (fuel : Nat) (p : String)
    (pathInst : Instruction) (A B kA kB S S' subsA subsB : List Instruction)
    (pA pB : List (String × Nat))
    (hpath : pathInst.kind = .push (.str p))
    (hscanA : scanIncludes 0 A = .ok (kA, pA))
    (hlastA : ∀ la, A.getLast? = some la → la.kind ≠ .kw .kinc)
    (hscanB : scanIncludes (A.length + 2) B = .ok (kB, pB))
    (hfs : fs p = some S)
    (hrec : includesRun fs fuel (hereSubst S) = .ok S')
    (hsubA : pA.foldl (includeSubStep fs fuel) (.ok []) = .ok subsA)
    (hsubB : pB.foldl (includeSubStep fs fuel) (.ok []) = .ok subsB) :
    includesRun fs (fuel + 1) (A ++ { kind := .kw .kinc } :: pathInst :: B) =
      .ok ((kA ++ kB) ++ ((subsA ++ S') ++ subsB)) := by
  have hmid : scanIncludes (0 + A.length)
      ({ kind := .kw .kinc } :: pathInst :: B) =
      .ok (kB, (p, A.length + 1) :: pB) := by
    rw [Nat.zero_add, scanIncludes_cons, if_pos rfl]
    simp only [hpath, includeArg, hscanB]
  have hscanFull := scanIncludes_append 0 A kA pA hscanA hlastA
    ({ kind := .kw .kinc } :: pathInst :: B) kB ((p, A.length + 1) :: pB) hmid
  rw [includesRun_succ, hscanFull]
  have hfind : (pA ++ (p, A.length + 1) :: pB).find?
      (fun pq => (fs pq.1).isNone) = none := by
    apply List.find?_eq_none.mpr
    intro x hx
    rcases List.mem_append.mp hx with hx | hx
    · have := foldl_includeSubStep_reads fs fuel pA [] subsA hsubA x hx
      simp [this]
    · rcases List.mem_cons.mp hx with rfl | hx
      · simp [hfs]
      · have := foldl_includeSubStep_reads fs fuel pB [] subsB hsubB x hx
        simp [this]
  have hstep : includeSubStep fs fuel (Except.ok subsA) (p, A.length + 1) =
      .ok (subsA ++ S') := by
    simp [includeSubStep, hfs, hrec]
  have hfold : (pA ++ (p, A.length + 1) :: pB).foldl
      (includeSubStep fs fuel) (Except.ok []) = .ok ((subsA ++ S') ++ subsB) := by
    rw [List.foldl_append, hsubA, List.foldl_cons, hstep]
    have hsh := foldl_includeSubStep_shift fs fuel pB (subsA ++ S') [] subsB hsubB
    rw [List.append_nil] at hsh
    exact hsh
  simp only [hfind, hfold]

/-- C1 witness: instantiating the amended statement in general position —
an instruction before the include pair, and a second include pair after
it: `0 include "lib" 1 include "lib2" 4` with `lib = 2`, `lib2 = 3`
resolves to `0 1 4 2 3`. -/
theorem includes_appends_included_file_witness :
    includesRun
        (fun q => if q = "lib" then some [{ kind := .push (.int 2) }]
          else if q = "lib2" then some [{ kind := .push (.int 3) }] else none)
        (100 + 1)
        ([{ kind := .push (.int 0) }] ++
          { kind := .kw .kinc } :: ({ kind := .push (.str "lib") } : Instruction) ::
            [{ kind := .push (.int 1) }, { kind := .kw .kinc },
             { kind := .push (.str "lib2") }, { kind := .push (.int 4) }]) =
      .ok (([{ kind := .push (.int 0) }] ++
          [{ kind := .push (.int 1) }, { kind := .push (.int 4) }]) ++
        (([] ++ [{ kind := .push (.int 2) }]) ++ [{ kind := .push (.int 3) }])) :=
  includes_appends_included_file
    (fun q => if q = "lib" then some [{ kind := .push (.int 2) }]
      else if q = "lib2" then some [{ kind := .push (.int 3) }] else none)
    100 "lib" { kind := .push (.str "lib") }
    [{ kind := .push (.int 0) }]
    [{ kind := .push (.int 1) }, { kind := .kw .kinc },
     { kind := .push (.str "lib2") }, { kind := .push (.int 4) }]
    [{ kind := .push (.int 0) }]
    [{ kind := .push (.int 1) }, { kind := .push (.int 4) }]
    [{ kind := .push (.int 2) }] [{ kind := .push (.int 2) }]
    [] [{ kind := .push (.int 3) }]
    [] [("lib2", 5)]
    rfl (by decide) (by intro la hla; cases hla; decide) (by decide) (by decide)
    (by decide) (by decide) (by decide)

/-! ## C7 — the macro-expansion fixpoint loop -/

/-- C7: if every reachable program state admits another substituting pass
(the invariant `P` holds of the start state and is preserved by passes that
report `has_expanded = true` — the situation of a directly or mutually
self-referential macro), the fixpoint loop exhausts any remaining pass
budget and fails with `TooManyMacroExpansions` at the 100-pass bound
instead of looping forever; and whenever a pass reports zero
substitutions, the loop stops successfully at that pass with that pass's
output. -/
theorem expand_fixpoint_loop_bounded (P : Program → Prop) (p q q' : Program)
    (hInv : ∀ r, P r → ∃ r', expandMacros r = .ok (r', true) ∧ P r')
    (hp : P p)
    (hq : expandMacros q = .ok (q', false)) :
    (∀ rem, expandLoop rem p = .error (.pre .tooManyMacroExpansions)) ∧
      (∀ rem, expandLoop rem q = .ok q') := by
  constructor
  · intro rem
    induction rem generalizing p with
    | zero =>
      obtain ⟨r', hr, _⟩ := hInv p hp
      rw [expandLoop, hr]
      rfl
    | succ n ih =>
      obtain ⟨r', hr, hP⟩ := hInv p hp
      rw [expandLoop, hr]
      exact ih r' hP
  · intro rem
    rw [expandLoop, hq]
    rfl


/-- C7 witness: a directly self-referential macro fails with
`TooManyMacroExpansions` from the full budget of 100 remaining passes; a
program with no names at all expands to itself with zero substitutions and
the loop stops at once. -/
theorem expand_fixpoint_loop_bounded_witness :
    expandLoop 100 selfRefProgram = .error (.pre .tooManyMacroExpansions) ∧
      expandLoop 100 { instructions := [{ kind := .push (.int 7) }] } =
        .ok { instructions := [{ kind := .push (.int 7) }] } := by
  have h := expand_fixpoint_loop_bounded
    (fun r => r = selfRefProgram) selfRefProgram
    { instructions := [{ kind := .push (.int 7) }] }
    { instructions := [{ kind := .push (.int 7) }] }
    (fun r hr => ⟨selfRefProgram, by subst hr; exact ⟨by decide, rfl⟩⟩) rfl (by decide)
  exact ⟨h.1 100, h.2 100⟩

/-! ## C8 — the end-of-program stack check -/

theorem typecheckFinal_iff (s : List ValType) :
    typecheckFinal s = .ok () ↔ (s = [] ∨ s = [ValType.int]) := by
  match s with
  | [] => simp [typecheckFinal]
  | [a] => cases a <;> simp [typecheckFinal]
  | a :: b :: t =>
    have h2 : (a :: b :: t).length > 1 := by simp
    simp only [typecheckFinal]
    rw [if_pos h2]
    constructor
    · intro h
      cases h
    · rintro (h | h) <;> simp at h

/-- C8: if the per-instruction loop reaches the end of the instruction
array with symbolic stack `s`, the typechecker succeeds exactly when `s`
is empty or a single `Int`; every other residue fails (with
`InvalidStack`). -/
theorem typecheck_end_of_program (prog : Program) (s : List ValType) (sn : List Snap)
    (h : typecheckGo prog.instructions [] [] = .ok (s, sn)) :
    typecheck prog = .ok () ↔ (s = [] ∨ s = [ValType.int]) := by
  unfold typecheck
  rw [h]
  exact typecheckFinal_iff s

/-- C8 witness: the program `1` (push one integer literal) finishes with
stack `[Int]` and typechecks. -/
theorem typecheck_end_of_program_witness :
    typecheck { instructions := [{ kind := .push (.int 1) }] } = .ok () :=
  (typecheck_end_of_program { instructions := [{ kind := .push (.int 1) }] }
    [.int] [] (by decide)).mpr (Or.inr rfl)

/-! ## C10 — the `Syscall` transfer rule -/

/-- C10: `SyscallN` pops `N + 1` symbolic values (the syscall number plus
`N` arguments; `syscallPops` is the source's literal table) with no
constraint on their types, then pushes a single `Int`; when fewer than
`N + 1` values are available it fails with `StackUnderflow`, the length
check happening before anything is popped. -/
theorem syscall_transfer (k : SyscallKind) (stack : List ValType) (snaps : List Snap) :
    (stack.length ≥ syscallPops k →
        typecheckStep (.syscall k) stack snaps =
          .ok (.int :: stack.drop (syscallPops k), snaps)) ∧
      (stack.length < syscallPops k →
        typecheckStep (.syscall k) stack snaps = .error (.err .stackUnderflow)) := by
  constructor
  · intro h
    simp [typecheckStep, requireN, Nat.not_lt.mpr h]
  · intro h
    simp [typecheckStep, requireN, h]

/-- C10 witness: `syscall1` pops two values of arbitrary type and pushes an
`Int`; on a single-element stack it underflows. -/
theorem syscall_transfer_witness :
    typecheckStep (.syscall .syscall1) [.ptr, .bool] [] = .ok ([.int], []) ∧
      typecheckStep (.syscall .syscall1) [.bool] [] = .error (.err .stackUnderflow) :=
  ⟨(syscall_transfer .syscall1 [.ptr, .bool] []).1 (by decide),
   (syscall_transfer .syscall1 [.bool] []).2 (by decide)⟩

theorem jumps_macros (prog out : Program) (h : jumps prog = .ok out) :
    out.macros = prog.macros ∧
      ∃ res, jumpsGo {} 0 prog.instructions = .ok res ∧ out.instructions = res := by
  unfold jumps at h
  cases hgo : jumpsGo {} 0 prog.instructions with
  | error e => rw [hgo] at h; cases h
  | ok res =>
    rw [hgo] at h
    cases h
    exact ⟨rfl, res, rfl, rfl⟩

theorem process_inv (fs : Fs) (prog out : Program) (h : process fs prog = .ok out) :
    ∃ instrs2 macros3 prog4,
      includesRun fs 101 (hereSubst prog.instructions) = .ok instrs2 ∧
      collectMacros (Program.mk prog.pname instrs2 prog.macros) = .ok macros3 ∧
      expandLoop 100 (Program.mk prog.pname instrs2 macros3) = .ok prog4 ∧
      jumps (Program.mk prog4.pname (ipsAssign prog4.instructions) prog4.macros) = .ok out := by
  unfold process at h
  cases hinc : includesRun fs 101 (hereSubst prog.instructions) with
  | error e => simp only [hinc] at h; cases h
  | ok instrs2 =>
    simp only [hinc] at h
    cases hcol : collectMacros (Program.mk prog.pname instrs2 prog.macros) with
    | error e => simp only [hcol] at h; cases h
    | ok macros3 =>
      simp only [hcol] at h
      cases hloop : expandLoop 100 (Program.mk prog.pname instrs2 macros3) with
      | error e => simp only [hloop] at h; cases h
      | ok prog4 =>
        simp only [hloop] at h
        exact ⟨instrs2, macros3, prog4, rfl, hcol, hloop, h⟩
/-! ## C2 — what survives the preprocessor -/

/-- C2 counterexample: a `Name` whose identifier matches no collected macro
survives the whole preprocessor pipeline — `process` succeeds and the
unresolved `Name` instruction is still in the output array. -/
theorem unmatched_name_survives_counterexample :
    process (fun _ => none) { instructions := [{ kind := .name "foo" }] } =
      .ok { instructions := [{ kind := .name "foo" }] } ∧
      ({ kind := .name "foo" } : Instruction) ∈
        ({ instructions := [{ kind := .name "foo" }] } : Program).instructions := by
  constructor
  · decide
  · decide

/-- C2 (amended): on any program handed over with an empty macro map, a
successful preprocessor run leaves no `Macro` keyword, no `Include`
keyword, and no `Name` that names a collected macro; only a `Name`
matching no macro definition can survive. -/
theorem process_output_constructs_eliminated (fs : Fs) (prog out : Program)
    (hmac : prog.macros = [])
    (h : process fs prog = .ok out) :
    ∀ i ∈ out.instructions,
      i.kind ≠ .kw .kmac ∧ i.kind ≠ .kw .kinc ∧
        ∀ n, i.kind = .name n → mapGet out.macros n = none := by
  obtain ⟨instrs2, macros3, prog4, hinc, hcol, hloop, hjmp⟩ := process_inv fs prog out h
  have hinc_free : ∀ i ∈ instrs2, i.kind ≠ .kw .kinc :=
    includesRun_no_inc fs 101 (hereSubst prog.instructions) instrs2 hinc
  rw [show collectMacros (Program.mk prog.pname instrs2 prog.macros) =
      collectMacrosGo (CollectSt.mk prog.macros [] "" [] false) 0 instrs2 from rfl,
    hmac] at hcol
  have hb_mac : ∀ n m, mapGet macros3 n = some m → ∀ i ∈ m.body, i.kind ≠ .kw .kmac := by
    apply collectMacrosGo_bodies (fun k => k ≠ .kw .kmac) instrs2
      (CollectSt.mk [] [] "" [] false) 0 macros3 hcol
    · intro n m hg; cases hg
    · intro i hi; cases hi
    · intro i _; exact Decidable.em (i.kind = .kw .kmac)
  have hb_inc : ∀ n m, mapGet macros3 n = some m → ∀ i ∈ m.body, i.kind ≠ .kw .kinc := by
    apply collectMacrosGo_bodies (fun k => k ≠ .kw .kinc) instrs2
      (CollectSt.mk [] [] "" [] false) 0 macros3 hcol
    · intro n m hg; cases hg
    · intro i hi; cases hi
    · intro i hi; exact Or.inr (hinc_free i hi)
  obtain ⟨h4mac, src, hsrc⟩ :=
    expandLoop_final 100 (Program.mk prog.pname instrs2 macros3) prog4 hloop
  have h4_kmac : ∀ i ∈ prog4.instructions, i.kind ≠ .kw .kmac :=
    expandMacrosGo_preserve macros3 (fun k => k ≠ .kw .kmac) src {}
      prog4.instructions false hsrc (fun i hi => by cases hi) hb_mac
      (fun i _ => Decidable.em (i.kind = .kw .kmac))
  have h4_kinc : ∀ i ∈ prog4.instructions, i.kind ≠ .kw .kinc :=
    expandLoop_kinc 100 (Program.mk prog.pname instrs2 macros3) prog4 hloop
      hb_inc hinc_free
  have h4_names : ∀ i ∈ prog4.instructions, ∀ n, i.kind = .name n →
      mapGet macros3 n = none :=
    expandMacrosGo_names macros3 src {} prog4.instructions hsrc (fun i hi => by cases hi)
  obtain ⟨houtmac, res, hgo, hres⟩ :=
    jumps_macros (Program.mk prog4.pname (ipsAssign prog4.instructions) prog4.macros) out hjmp
  have hshape : ∀ i ∈ out.instructions,
      ∃ i0 ∈ prog4.instructions, slotErase i.kind = slotErase i0.kind := by
    intro i hi
    rw [hres] at hi
    rcases jumpsGo_shape (ipsAssign prog4.instructions) {} 0 res hgo i hi with
      ⟨i0, hi0, _⟩ | ⟨i0, hi0, he⟩
    · cases hi0
    · obtain ⟨i1, hi1, hk1⟩ := ipsAssignGo_mem prog4.instructions 0 i0 hi0
      exact ⟨i1, hi1, by rw [he, hk1]⟩
  intro i hi
  obtain ⟨i0, hi0, he⟩ := hshape i hi
  refine ⟨?_, ?_, ?_⟩
  · intro hk
    apply h4_kmac i0 hi0
    apply slotErase_eq_kmac
    rw [← he, hk]
    rfl
  · intro hk
    apply h4_kinc i0 hi0
    apply slotErase_eq_kinc
    rw [← he, hk]
    rfl
  · intro n hn
    have hi0n : i0.kind = .name n := slotErase_eq_name i0.kind n (by rw [← he, hn]; rfl)
    have := h4_names i0 hi0 n hi0n
    rw [houtmac]
    rw [show (Program.mk prog4.pname (ipsAssign prog4.instructions) prog4.macros).macros =
        prog4.macros from rfl, h4mac]
    exact this

/-- C2 witness: preprocessing `macro m 1 end m` succeeds; every instruction
of the output satisfies the amended guarantee (no `Macro`, no `Include`, no
`Name` bound in the collected macro map). -/
theorem process_output_constructs_eliminated_witness :
    ({ instructions := [
        { kind := .kw .kmac }, { kind := .name "m" }, { kind := .push (.int 1) },
        { kind := .kw (.kend 0 none) }, { kind := .name "m" }] } : Program).macros = [] ∧
    ∀ i ∈ (Program.mk ""
        [{ kind := .push (.int 1), loc := ("", 0, 0), ip := 0 }]
        [("m", { mname := "m",
                 body := [{ kind := .push (.int 1), loc := ("", 0, 0), ip := 0 }],
                 span := (0, 3) })]).instructions,
      i.kind ≠ .kw .kmac ∧ i.kind ≠ .kw .kinc ∧
        ∀ n, i.kind = .name n →
          mapGet (Program.mk ""
            [{ kind := .push (.int 1), loc := ("", 0, 0), ip := 0 }]
            [("m", { mname := "m",
                     body := [{ kind := .push (.int 1), loc := ("", 0, 0), ip := 0 }],
                     span := (0, 3) })]).macros n = none :=
  ⟨rfl, process_output_constructs_eliminated (fun _ => none)
    { instructions := [
        { kind := .kw .kmac }, { kind := .name "m" }, { kind := .push (.int 1) },
        { kind := .kw (.kend 0 none) }, { kind := .name "m" }] }
    (Program.mk ""
      [{ kind := .push (.int 1), loc := ("", 0, 0), ip := 0 }]
      [("m", { mname := "m",
               body := [{ kind := .push (.int 1), loc := ("", 0, 0), ip := 0 }],
               span := (0, 3) })])
    rfl (by decide)⟩


/-! ### Preservation of the resolver invariant under slot writes -/

theorem length_slotWrite (l : List Instruction) (s : Slot) (v : Nat) :
    (slotWrite l s v).length = l.length := by
  unfold slotWrite
  cases hg : l[s.1]? with
  | none => rfl
  | some inst => exact List.length_set l s.1 _

theorem length_patchElifs : ∀ (elifs : List Slot) (l : List Instruction) (v : Nat),
    (patchElifs l elifs v).length = l.length := by
  intro elifs
  induction elifs with
  | nil => intro l v; rfl
  | cons s rest ih =>
    intro l v
    rw [patchElifs, ih, length_slotWrite]

theorem getElem?_slotWrite_ne (l : List Instruction) (s : Slot) (v : Nat)
    (j : Nat) (hj : s.1 ≠ j) : (slotWrite l s v)[j]? = l[j]? := by
  unfold slotWrite
  cases hg : l[s.1]? with
  | none => rfl
  | some inst => exact List.getElem?_set_ne hj

theorem getElem?_slotWrite_self (l : List Instruction) (s : Slot) (v : Nat) :
    (slotWrite l s v)[s.1]? =
      Option.map (fun inst =>
        { inst with kind := patchKind inst.kind s.2 v }) l[s.1]? := by
  cases hg : l[s.1]? with
  | none => simp [slotWrite, hg]
  | some inst =>
    simp only [slotWrite, hg, Option.map_some]
    exact List.getElem?_set_self (List.getElem?_eq_some.mp hg).1

theorem patchKind_fEndIp_eq_kend {k : InstructionKind} {a : Nat} {b : Option Nat}
    {v : Nat} (h : patchKind k .fEndIp v = .kw (.kend a b)) : k = .kw (.kend a b) := by
  cases k with
  | kw kk => cases kk <;> first | exact h | (simp [patchKind] at h)
  | _ => exact h

theorem patchKind_fEndIp_eq_kwhile {k : InstructionKind} {a b : Nat}
    {v : Nat} (h : patchKind k .fEndIp v = .kw (.kwhile a b)) : k = .kw (.kwhile a b) := by
  cases k with
  | kw kk => cases kk <;> first | exact h | (simp [patchKind] at h)
  | _ => exact h

theorem slotValues_patchKind (k : InstructionKind) (f : SlotField) (v : Nat) :
    ∀ x ∈ slotValues (patchKind k f v), x = v ∨ x ∈ slotValues k := by
  intro x hx
  cases f <;> cases k <;>
    first
    | (right; exact hx)
    | (rename_i kk
       cases kk <;>
         first
         | (right; exact hx)
         | (simp [patchKind, slotValues] at hx ⊢; tauto))

theorem slotsBounded_mono {B B' : Nat} (hBB : B ≤ B') (l : List Instruction)
    (h : slotsBounded B l) : slotsBounded B' l :=
  fun inst hi v hv => (h inst hi v hv).imp (fun q => lt_of_lt_of_le q hBB) id

theorem slotsBounded_slotWrite {B : Nat} (l : List Instruction) (s : Slot) (v : Nat)
    (h : slotsBounded B l) (hv : v < B ∨ v = 0) : slotsBounded B (slotWrite l s v) := by
  intro inst hi x hx
  cases hg : l[s.1]? with
  | none =>
    rw [slotWrite, hg] at hi
    exact h inst hi x hx
  | some inst0 =>
    rw [slotWrite, hg] at hi
    rcases List.mem_or_eq_of_mem_set hi with h1 | h1
    · exact h inst h1 x hx
    · subst h1
      rcases slotValues_patchKind inst0.kind s.2 v x hx with h2 | h2
      · subst h2; exact hv
      · exact h inst0 (List.getElem?_mem hg) x h2

theorem slotsBounded_append {B : Nat} (l : List Instruction) (inst : Instruction)
    (h : slotsBounded B l) (hinst : ∀ v ∈ slotValues inst.kind, v < B ∨ v = 0) :
    slotsBounded B (l ++ [inst]) := by
  intro i hi x hx
  rcases List.mem_append.mp hi with hi | hi
  · exact h i hi x hx
  · rw [List.mem_singleton] at hi
    subst hi
    exact hinst x hx

theorem slotsBounded_patchElifs {B : Nat} :
    ∀ (elifs : List Slot) (l : List Instruction) (v : Nat),
      slotsBounded B l → (v < B ∨ v = 0) → slotsBounded B (patchElifs l elifs v) := by
  intro elifs
  induction elifs with
  | nil => intro l v h _; exact h
  | cons s rest ih =>
    intro l v h hv
    rw [patchElifs]
    exact ih (slotWrite l s v) v (slotsBounded_slotWrite l s v h hv) hv

theorem whileAt_slotWrite (l : List Instruction) (s' : Slot) (v : Nat)
    (hf : s'.2 = .fEndIp) {s : Slot} (h : whileAt l s) : whileAt (slotWrite l s' v) s := by
  obtain ⟨hfs, inst, d, hg, hk⟩ := h
  by_cases hj : s'.1 = s.1
  · refine ⟨hfs, { inst with kind := patchKind inst.kind s'.2 v }, d, ?_, ?_⟩
    · rw [← hj, getElem?_slotWrite_self, hj, hg]; rfl
    · show patchKind inst.kind s'.2 v = _
      rw [hk, hf]
      rfl
  · exact ⟨hfs, inst, d, by rw [getElem?_slotWrite_ne l s' v s.1 hj, hg], hk⟩

theorem whileAt_append (l : List Instruction) (inst : Instruction) {s : Slot}
    (h : whileAt l s) : whileAt (l ++ [inst]) s := by
  obtain ⟨hfs, inst0, d, hg, hk⟩ := h
  exact ⟨hfs, inst0, d,
    by rw [List.getElem?_append_left (List.getElem?_eq_some.mp hg).1, hg], hk⟩

theorem whileAt_patchElifs :
    ∀ (elifs : List Slot) (l : List Instruction) (v : Nat),
      (∀ s' ∈ elifs, s'.2 = .fEndIp) → ∀ {s : Slot}, whileAt l s →
        whileAt (patchElifs l elifs v) s := by
  intro elifs
  induction elifs with
  | nil => intro l v _ s h; exact h
  | cons s0 rest ih =>
    intro l v he s h
    rw [patchElifs]
    exact ih (slotWrite l s0 v) v (fun s' hs' => he s' (List.mem_cons_of_mem _ hs'))
      (whileAt_slotWrite l s0 v (he s0 (List.mem_cons_self s0 rest)) h)

theorem whileAt_lt (l : List Instruction) {s : Slot} (h : whileAt l s) :
    s.1 < l.length := by
  obtain ⟨_, inst, d, hg, _⟩ := h
  exact (List.getElem?_eq_some.mp hg).1

theorem whileAt_slotRead (l : List Instruction) {s : Slot} (h : whileAt l s) :
    slotRead l s = s.1 := by
  obtain ⟨hfs, inst, d, hg, hk⟩ := h
  simp only [slotRead, hg, hfs, hk]

theorem doneBacked_slotWrite (l : List Instruction) (s : Slot) (v : Nat)
    (hf : s.2 = .fEndIp) (h : doneBacked l) : doneBacked (slotWrite l s v) := by
  intro j inst hj a w hk
  have hstep : ∃ (inst' : Instruction) (d : Nat),
      l[w]? = some inst' ∧ inst'.kind = .kw (.kwhile w d) := by
    by_cases hjs : s.1 = j
    · subst hjs
      rw [getElem?_slotWrite_self] at hj
      cases hg : l[s.1]? with
      | none => rw [hg] at hj; cases hj
      | some inst0 =>
        rw [hg] at hj
        simp only [Option.map] at hj
        cases hj
        have hk0 : inst0.kind = .kw (.kend a (some w)) := by
          apply patchKind_fEndIp_eq_kend
          rw [← hf]; exact hk
        exact h s.1 inst0 hg a w hk0
    · rw [getElem?_slotWrite_ne l s v j hjs] at hj
      exact h j inst hj a w hk
  obtain ⟨inst', d, hw, hwk⟩ := hstep
  by_cases hws : s.1 = w
  · subst hws
    refine ⟨{ inst' with kind := patchKind inst'.kind s.2 v }, d, ?_, ?_⟩
    · rw [getElem?_slotWrite_self, hw]; rfl
    · show patchKind inst'.kind s.2 v = _
      rw [hwk, hf]
      rfl
  · exact ⟨inst', d, by rw [getElem?_slotWrite_ne l s v w hws, hw], hwk⟩

theorem doneBacked_patchElifs :
    ∀ (elifs : List Slot) (l : List Instruction) (v : Nat),
      (∀ s' ∈ elifs, s'.2 = .fEndIp) → doneBacked l →
        doneBacked (patchElifs l elifs v) := by
  intro elifs
  induction elifs with
  | nil => intro l v _ h; exact h
  | cons s0 rest ih =>
    intro l v he h
    rw [patchElifs]
    exact ih (slotWrite l s0 v) v (fun s' hs' => he s' (List.mem_cons_of_mem _ hs'))
      (doneBacked_slotWrite l s0 v (he s0 (List.mem_cons_self s0 rest)) h)

theorem doneBacked_append (l : List Instruction) (inst : Instruction)
    (h : doneBacked l)
    (hinst : ∀ (a w : Nat), inst.kind = .kw (.kend a (some w)) →
      ∃ (inst' : Instruction) (d : Nat),
        l[w]? = some inst' ∧ inst'.kind = .kw (.kwhile w d)) :
    doneBacked (l ++ [inst]) := by
  intro j inst1 hj a w hk
  have hlift : ∀ (inst' : Instruction) (d : Nat),
      l[w]? = some inst' → inst'.kind = .kw (.kwhile w d) →
      ∃ (inst2 : Instruction) (d2 : Nat),
        (l ++ [inst])[w]? = some inst2 ∧ inst2.kind = .kw (.kwhile w d2) :=
    fun inst' d hw hwk =>
      ⟨inst', d, by rw [List.getElem?_append_left (List.getElem?_eq_some.mp hw).1, hw], hwk⟩
  by_cases hjl : j < l.length
  · rw [List.getElem?_append_left hjl] at hj
    obtain ⟨inst', d, hw, hwk⟩ := h j inst1 hj a w hk
    exact hlift inst' d hw hwk
  · rw [List.getElem?_append_right (Nat.le_of_not_lt hjl)] at hj
    cases hd : j - l.length with
    | zero =>
      rw [hd] at hj
      simp only [List.getElem?_cons_zero] at hj
      cases hj
      obtain ⟨inst', d, hw, hwk⟩ := hinst a w hk
      exact hlift inst' d hw hwk
    | succ m =>
      rw [hd] at hj
      simp at hj

theorem frameOK_slotWrite (l : List Instruction) (s' : Slot) (v : Nat)
    (hf : s'.2 = .fEndIp) {fr : Frame} (h : frameOK l fr) :
    frameOK (slotWrite l s' v) fr := by
  obtain ⟨h1, h2, h3⟩ := h
  refine ⟨?_, ?_, h3⟩
  · intro ht
    obtain ⟨j, hA, hw⟩ := h1 ht
    exact ⟨j, hA, whileAt_slotWrite l s' v hf hw⟩
  · intro ht s hs
    exact whileAt_slotWrite l s' v hf (h2 ht s hs)

theorem frameOK_append (l : List Instruction) (inst : Instruction)
    {fr : Frame} (h : frameOK l fr) : frameOK (l ++ [inst]) fr := by
  obtain ⟨h1, h2, h3⟩ := h
  refine ⟨?_, ?_, h3⟩
  · intro ht
    obtain ⟨j, hA, hw⟩ := h1 ht
    exact ⟨j, hA, whileAt_append l inst hw⟩
  · intro ht s hs
    exact whileAt_append l inst (h2 ht s hs)

theorem frameOK_patchElifs (elifs : List Slot) (l : List Instruction) (v : Nat)
    (he : ∀ s' ∈ elifs, s'.2 = .fEndIp) {fr : Frame} (h : frameOK l fr) :
    frameOK (patchElifs l elifs v) fr := by
  obtain ⟨h1, h2, h3⟩ := h
  refine ⟨?_, ?_, h3⟩
  · intro ht
    obtain ⟨j, hA, hw⟩ := h1 ht
    exact ⟨j, hA, whileAt_patchElifs elifs l v he hw⟩
  · intro ht s hs
    exact whileAt_patchElifs elifs l v he (h2 ht s hs)

theorem jumpsInv_mk (done : List Instruction) (stack : List Frame) (elifs : List Slot)
    (h1 : doneBacked done) (h2 : slotsBounded done.length done)
    (h3 : ∀ fr ∈ stack, frameOK done fr) (h4 : ∀ s ∈ elifs, s.2 = .fEndIp) :
    jumpsInv ⟨done, stack, elifs⟩ :=
  ⟨h1, h2, h3, h4⟩

theorem jumpsStep_inv (inst : Instruction) (st st' : JumpSt) (ip : Nat)
    (hfresh : slotErase inst.kind = inst.kind)
    (hinv : jumpsInv st) (hip : st.done.length = ip)
    (h : jumpsStep inst.kind inst st ip = .ok st') :
    jumpsInv st' ∧ st'.done.length = ip + 1 := by
  obtain ⟨hB, hS, hF, hE⟩ := hinv
  have hlen : ∀ (i : Instruction), (st.done ++ [i]).length = ip + 1 := by
    intro i; simp [hip]
  cases hk : inst.kind with
  | push v =>
    rw [hk] at h; simp only [jumpsStep] at h; cases h
    refine ⟨jumpsInv_mk _ _ _ ?_ ?_ ?_ ?_, ?_⟩
    · exact doneBacked_append st.done inst hB
        (fun a w hkk => by rw [hk] at hkk; cases hkk)
    · rw [hlen]
      refine slotsBounded_append st.done inst
        (slotsBounded_mono (by omega) st.done hS) ?_
      intro x hx; rw [hk] at hx; simp [slotValues] at hx
    · exact fun fr hfr => frameOK_append st.done inst (hF fr hfr)
    · exact hE
    · exact hlen inst
  | intrinsic ii =>
    rw [hk] at h; simp only [jumpsStep] at h; cases h
    refine ⟨jumpsInv_mk _ _ _ ?_ ?_ ?_ ?_, ?_⟩
    · exact doneBacked_append st.done inst hB
        (fun a w hkk => by rw [hk] at hkk; cases hkk)
    · rw [hlen]
      refine slotsBounded_append st.done inst
        (slotsBounded_mono (by omega) st.done hS) ?_
      intro x hx; rw [hk] at hx; simp [slotValues] at hx
    · exact fun fr hfr => frameOK_append st.done inst (hF fr hfr)
    · exact hE
    · exact hlen inst
  | op o =>
    rw [hk] at h; simp only [jumpsStep] at h; cases h
    refine ⟨jumpsInv_mk _ _ _ ?_ ?_ ?_ ?_, ?_⟩
    · exact doneBacked_append st.done inst hB
        (fun a w hkk => by rw [hk] at hkk; cases hkk)
    · rw [hlen]
      refine slotsBounded_append st.done inst
        (slotsBounded_mono (by omega) st.done hS) ?_
      intro x hx; rw [hk] at hx; simp [slotValues] at hx
    · exact fun fr hfr => frameOK_append st.done inst (hF fr hfr)
    · exact hE
    · exact hlen inst
  | name n =>
    rw [hk] at h; simp only [jumpsStep] at h; cases h
    refine ⟨jumpsInv_mk _ _ _ ?_ ?_ ?_ ?_, ?_⟩
    · exact doneBacked_append st.done inst hB
        (fun a w hkk => by rw [hk] at hkk; cases hkk)
    · rw [hlen]
      refine slotsBounded_append st.done inst
        (slotsBounded_mono (by omega) st.done hS) ?_
      intro x hx; rw [hk] at hx; simp [slotValues] at hx
    · exact fun fr hfr => frameOK_append st.done inst (hF fr hfr)
    · exact hE
    · exact hlen inst
  | syscall sc =>
    rw [hk] at h; simp only [jumpsStep] at h; cases h
    refine ⟨jumpsInv_mk _ _ _ ?_ ?_ ?_ ?_, ?_⟩
    · exact doneBacked_append st.done inst hB
        (fun a w hkk => by rw [hk] at hkk; cases hkk)
    · rw [hlen]
      refine slotsBounded_append st.done inst
        (slotsBounded_mono (by omega) st.done hS) ?_
      intro x hx; rw [hk] at hx; simp [slotValues] at hx
    · exact fun fr hfr => frameOK_append st.done inst (hF fr hfr)
    · exact hE
    · exact hlen inst
  | kw kk =>
    cases kk with
    | kmac =>
      rw [hk] at h; simp only [jumpsStep] at h; cases h
      refine ⟨jumpsInv_mk _ _ _ ?_ ?_ ?_ ?_, ?_⟩
      · exact doneBacked_append st.done inst hB
          (fun a w hkk => by rw [hk] at hkk; cases hkk)
      · rw [hlen]
        refine slotsBounded_append st.done inst
          (slotsBounded_mono (by omega) st.done hS) ?_
        intro x hx; rw [hk] at hx; simp [slotValues] at hx
      · exact fun fr hfr => frameOK_append st.done inst (hF fr hfr)
      · exact hE
      · exact hlen inst
    | kinc =>
      rw [hk] at h; simp only [jumpsStep] at h; cases h
      refine ⟨jumpsInv_mk _ _ _ ?_ ?_ ?_ ?_, ?_⟩
      · exact doneBacked_append st.done inst hB
          (fun a w hkk => by rw [hk] at hkk; cases hkk)
      · rw [hlen]
        refine slotsBounded_append st.done inst
          (slotsBounded_mono (by omega) st.done hS) ?_
        intro x hx; rw [hk] at hx; simp [slotValues] at hx
      · exact fun fr hfr => frameOK_append st.done inst (hF fr hfr)
      · exact hE
      · exact hlen inst
    | kif =>
      rw [hk] at h; simp only [jumpsStep] at h; cases h
      refine ⟨jumpsInv_mk _ _ _ ?_ ?_ ?_ ?_, ?_⟩
      · exact doneBacked_append st.done inst hB
          (fun a w hkk => by rw [hk] at hkk; cases hkk)
      · rw [hlen]
        refine slotsBounded_append st.done inst
          (slotsBounded_mono (by omega) st.done hS) ?_
        intro x hx; rw [hk] at hx; simp [slotValues] at hx
      · intro fr hfr
        rcases List.mem_cons.mp hfr with rfl | hfr
        · refine ⟨fun ht => ?_, fun ht => ?_, fun ht => ?_⟩
          · cases ht
          · cases ht
          · rcases ht with ht | ht | ht | ht <;> cases ht
        · exact frameOK_append st.done inst (hF fr hfr)
      · exact hE
      · exact hlen inst
    | kwhile a d =>
      rw [hk] at h
      rw [hk] at hfresh
      simp only [slotErase, InstructionKind.kw.injEq, Keyword.kwhile.injEq] at hfresh
      obtain ⟨ha, hd⟩ := hfresh
      subst hd
      simp only [jumpsStep] at h; cases h
      refine ⟨jumpsInv_mk _ _ _ ?_ ?_ ?_ ?_, ?_⟩
      · exact doneBacked_append st.done _ hB (fun a' w hkk => by cases hkk)
      · rw [hlen]
        refine slotsBounded_append st.done _
          (slotsBounded_mono (by omega) st.done hS) ?_
        intro x hx
        have hx' : x ∈ [ip, 0] := hx
        simp at hx'
        rcases hx' with rfl | rfl
        · left; omega
        · right; rfl
      · intro fr hfr
        rcases List.mem_cons.mp hfr with rfl | hfr
        · refine ⟨fun _ => ⟨ip, rfl, rfl,
            { inst with kind := InstructionKind.kw (Keyword.kwhile ip 0) }, 0, ?_, rfl⟩,
            fun ht => ?_, fun ht => ?_⟩
          · have hg := List.getElem?_concat_length st.done
              ({ inst with kind := InstructionKind.kw (Keyword.kwhile ip 0) })
            rw [hip] at hg
            exact hg
          · cases ht
          · rcases ht with ht | ht | ht | ht <;> cases ht
        · exact frameOK_append st.done _ (hF fr hfr)
      · exact hE
      · exact hlen _
    | kdo e =>
      rw [hk] at h
      rw [hk] at hfresh
      simp only [slotErase, InstructionKind.kw.injEq, Keyword.kdo.injEq] at hfresh
      subst hfresh
      cases hs : st.stack with
      | nil => simp only [jumpsStep, hs] at h; cases h
      | cons fr srest =>
        simp only [jumpsStep, hs] at h
        have hFfr : frameOK st.done fr :=
          hF fr (by rw [hs]; exact List.mem_cons_self fr srest)
        have hFr : ∀ fr' ∈ srest, frameOK st.done fr' :=
          fun fr' h' => hF fr' (by rw [hs]; exact List.mem_cons_of_mem _ h')
        cases ht : fr.tag with
        | tmac => rw [ht] at h; cases h
        | tdo => rw [ht] at h; cases h
        | tifdo => rw [ht] at h; cases h
        | telifdo => rw [ht] at h; cases h
        | telse => rw [ht] at h; cases h
        | twhiledo => rw [ht] at h; cases h
        | tif =>
          rw [ht] at h; cases h
          refine ⟨jumpsInv_mk _ _ _ ?_ ?_ ?_ ?_, ?_⟩
          · exact doneBacked_append st.done inst hB
              (fun a w hkk => by rw [hk] at hkk; cases hkk)
          · rw [hlen]
            refine slotsBounded_append st.done inst
              (slotsBounded_mono (by omega) st.done hS) ?_
            intro x hx
            rw [hk] at hx
            simp [slotValues] at hx
            subst hx
            right; rfl
          · intro fr' hfr'
            rcases List.mem_cons.mp hfr' with rfl | hfr'
            · refine ⟨fun ht' => ?_, fun ht' => ?_, fun _ => ⟨ip, rfl⟩⟩
              · cases ht'
              · cases ht'
            · exact frameOK_append st.done inst (hFr fr' hfr')
          · exact hE
          · exact hlen inst
        | telif =>
          rw [ht] at h; cases h
          refine ⟨jumpsInv_mk _ _ _ ?_ ?_ ?_ ?_, ?_⟩
          · exact doneBacked_append st.done inst hB
              (fun a w hkk => by rw [hk] at hkk; cases hkk)
          · rw [hlen]
            refine slotsBounded_append st.done inst
              (slotsBounded_mono (by omega) st.done hS) ?_
            intro x hx
            rw [hk] at hx
            simp [slotValues] at hx
            subst hx
            right; rfl
          · intro fr' hfr'
            rcases List.mem_cons.mp hfr' with rfl | hfr'
            · refine ⟨fun ht' => ?_, fun ht' => ?_, fun _ => ⟨ip, rfl⟩⟩
              · cases ht'
              · cases ht'
            · exact frameOK_append st.done inst (hFr fr' hfr')
          · exact hE
          · exact hlen inst
        | twhile =>
          rw [ht] at h; cases h
          obtain ⟨j, hA, hw⟩ := hFfr.1 ht
          refine ⟨jumpsInv_mk _ _ _ ?_ ?_ ?_ ?_, ?_⟩
          · exact doneBacked_append st.done inst hB
              (fun a w hkk => by rw [hk] at hkk; cases hkk)
          · rw [hlen]
            refine slotsBounded_append st.done inst
              (slotsBounded_mono (by omega) st.done hS) ?_
            intro x hx
            rw [hk] at hx
            simp [slotValues] at hx
            subst hx
            right; rfl
          · intro fr' hfr'
            rcases List.mem_cons.mp hfr' with rfl | hfr'
            · refine ⟨fun ht' => ?_, fun _ s hs' => ?_, fun _ => ⟨ip, rfl⟩⟩
              · cases ht'
              · have hs'' : fr.slotA = some s := hs'
                rw [hA] at hs''
                injection hs'' with hs''
                subst hs''
                exact whileAt_append st.done inst hw
            · exact frameOK_append st.done inst (hFr fr' hfr')
          · exact hE
          · exact hlen inst
    | kelif a e =>
      rw [hk] at h
      rw [hk] at hfresh
      simp only [slotErase, InstructionKind.kw.injEq, Keyword.kelif.injEq] at hfresh
      obtain ⟨ha, he⟩ := hfresh
      subst he
      cases hs : st.stack with
      | nil => simp only [jumpsStep, hs] at h; cases h
      | cons fr srest =>
        simp only [jumpsStep, hs] at h
        have hFfr : frameOK st.done fr :=
          hF fr (by rw [hs]; exact List.mem_cons_self fr srest)
        have hFr : ∀ fr' ∈ srest, frameOK st.done fr' :=
          fun fr' h' => hF fr' (by rw [hs]; exact List.mem_cons_of_mem _ h')
        have hwlen : ∀ (sl : Slot) (i : Instruction),
            (slotWrite st.done sl ip ++ [i]).length = ip + 1 := by
          intro sl i; simp [length_slotWrite, hip]
        cases ht : fr.tag with
        | tmac => rw [ht] at h; cases h
        | tdo => rw [ht] at h; cases h
        | tif => rw [ht] at h; cases h
        | telif => rw [ht] at h; cases h
        | telse => rw [ht] at h; cases h
        | twhile => rw [ht] at h; cases h
        | twhiledo => rw [ht] at h; cases h
        | tifdo =>
          rw [ht] at h
          cases hsa : fr.slotA with
          | none => rw [hsa] at h; cases h
          | some sl =>
            rw [hsa] at h; cases h
            obtain ⟨j, hA⟩ := hFfr.2.2 (Or.inl ht)
            rw [hsa] at hA
            injection hA with hA
            have hsl2 : sl.2 = SlotField.fEndIp := by rw [hA]
            refine ⟨jumpsInv_mk _ _ _ ?_ ?_ ?_ ?_, ?_⟩
            · exact doneBacked_append _ _ (doneBacked_slotWrite st.done sl ip hsl2 hB)
                (fun a' w hkk => by cases hkk)
            · rw [hwlen]
              refine slotsBounded_append _ _
                (slotsBounded_slotWrite st.done sl ip
                  (slotsBounded_mono (by omega) st.done hS) (Or.inl (by omega))) ?_
              intro x hx
              have hx' : x ∈ [ip, 0] := hx
              simp at hx'
              rcases hx' with rfl | rfl
              · left; omega
              · right; rfl
            · intro fr' hfr'
              rcases List.mem_cons.mp hfr' with rfl | hfr'
              · refine ⟨fun ht' => ?_, fun ht' => ?_, fun ht' => ?_⟩
                · cases ht'
                · cases ht'
                · rcases ht' with ht' | ht' | ht' | ht' <;> cases ht'
              · exact frameOK_append _ _
                  (frameOK_slotWrite st.done sl ip hsl2 (hFr fr' hfr'))
            · intro s hsm
              rcases List.mem_append.mp hsm with hsm | hsm
              · exact hE s hsm
              · rw [List.mem_singleton] at hsm
                subst hsm
                rfl
            · exact hwlen sl _
        | telifdo =>
          rw [ht] at h
          cases hsa : fr.slotA with
          | none => rw [hsa] at h; cases h
          | some sl =>
            rw [hsa] at h; cases h
            obtain ⟨j, hA⟩ := hFfr.2.2 (Or.inr (Or.inl ht))
            rw [hsa] at hA
            injection hA with hA
            have hsl2 : sl.2 = SlotField.fEndIp := by rw [hA]
            refine ⟨jumpsInv_mk _ _ _ ?_ ?_ ?_ ?_, ?_⟩
            · exact doneBacked_append _ _ (doneBacked_slotWrite st.done sl ip hsl2 hB)
                (fun a' w hkk => by cases hkk)
            · rw [hwlen]
              refine slotsBounded_append _ _
                (slotsBounded_slotWrite st.done sl ip
                  (slotsBounded_mono (by omega) st.done hS) (Or.inl (by omega))) ?_
              intro x hx
              have hx' : x ∈ [ip, 0] := hx
              simp at hx'
              rcases hx' with rfl | rfl
              · left; omega
              · right; rfl
            · intro fr' hfr'
              rcases List.mem_cons.mp hfr' with rfl | hfr'
              · refine ⟨fun ht' => ?_, fun ht' => ?_, fun ht' => ?_⟩
                · cases ht'
                · cases ht'
                · rcases ht' with ht' | ht' | ht' | ht' <;> cases ht'
              · exact frameOK_append _ _
                  (frameOK_slotWrite st.done sl ip hsl2 (hFr fr' hfr'))
            · intro s hsm
              rcases List.mem_append.mp hsm with hsm | hsm
              · exact hE s hsm
              · rw [List.mem_singleton] at hsm
                subst hsm
                rfl
            · exact hwlen sl _
    | kelse a e =>
      rw [hk] at h
      rw [hk] at hfresh
      simp only [slotErase, InstructionKind.kw.injEq, Keyword.kelse.injEq] at hfresh
      obtain ⟨ha, he⟩ := hfresh
      subst he
      cases hs : st.stack with
      | nil => simp only [jumpsStep, hs] at h; cases h
      | cons fr srest =>
        simp only [jumpsStep, hs] at h
        have hFfr : frameOK st.done fr :=
          hF fr (by rw [hs]; exact List.mem_cons_self fr srest)
        have hFr : ∀ fr' ∈ srest, frameOK st.done fr' :=
          fun fr' h' => hF fr' (by rw [hs]; exact List.mem_cons_of_mem _ h')
        have hwlen : ∀ (sl : Slot) (i : Instruction),
            (slotWrite st.done sl ip ++ [i]).length = ip + 1 := by
          intro sl i; simp [length_slotWrite, hip]
        cases ht : fr.tag with
        | tmac => rw [ht] at h; cases h
        | tdo => rw [ht] at h; cases h
        | tif => rw [ht] at h; cases h
        | telif => rw [ht] at h; cases h
        | telse => rw [ht] at h; cases h
        | twhile => rw [ht] at h; cases h
        | twhiledo => rw [ht] at h; cases h
        | tifdo =>
          rw [ht] at h
          cases hsa : fr.slotA with
          | none => rw [hsa] at h; cases h
          | some sl =>
            rw [hsa] at h; cases h
            obtain ⟨j, hA⟩ := hFfr.2.2 (Or.inl ht)
            rw [hsa] at hA
            injection hA with hA
            have hsl2 : sl.2 = SlotField.fEndIp := by rw [hA]
            refine ⟨jumpsInv_mk _ _ _ ?_ ?_ ?_ ?_, ?_⟩
            · exact doneBacked_append _ _ (doneBacked_slotWrite st.done sl ip hsl2 hB)
                (fun a' w hkk => by cases hkk)
            · rw [hwlen]
              refine slotsBounded_append _ _
                (slotsBounded_slotWrite st.done sl ip
                  (slotsBounded_mono (by omega) st.done hS) (Or.inl (by omega))) ?_
              intro x hx
              have hx' : x ∈ [ip, 0] := hx
              simp at hx'
              rcases hx' with rfl | rfl
              · left; omega
              · right; rfl
            · intro fr' hfr'
              rcases List.mem_cons.mp hfr' with rfl | hfr'
              · refine ⟨fun ht' => ?_, fun ht' => ?_, fun _ => ⟨ip, rfl⟩⟩
                · cases ht'
                · cases ht'
              · exact frameOK_append _ _
                  (frameOK_slotWrite st.done sl ip hsl2 (hFr fr' hfr'))
            · exact hE
            · exact hwlen sl _
        | telifdo =>
          rw [ht] at h
          cases hsa : fr.slotA with
          | none => rw [hsa] at h; cases h
          | some sl =>
            rw [hsa] at h; cases h
            obtain ⟨j, hA⟩ := hFfr.2.2 (Or.inr (Or.inl ht))
            rw [hsa] at hA
            injection hA with hA
            have hsl2 : sl.2 = SlotField.fEndIp := by rw [hA]
            refine ⟨jumpsInv_mk _ _ _ ?_ ?_ ?_ ?_, ?_⟩
            · exact doneBacked_append _ _ (doneBacked_slotWrite st.done sl ip hsl2 hB)
                (fun a' w hkk => by cases hkk)
            · rw [hwlen]
              refine slotsBounded_append _ _
                (slotsBounded_slotWrite st.done sl ip
                  (slotsBounded_mono (by omega) st.done hS) (Or.inl (by omega))) ?_
              intro x hx
              have hx' : x ∈ [ip, 0] := hx
              simp at hx'
              rcases hx' with rfl | rfl
              · left; omega
              · right; rfl
            · intro fr' hfr'
              rcases List.mem_cons.mp hfr' with rfl | hfr'
              · refine ⟨fun ht' => ?_, fun ht' => ?_, fun _ => ⟨ip, rfl⟩⟩
                · cases ht'
                · cases ht'
              · exact frameOK_append _ _
                  (frameOK_slotWrite st.done sl ip hsl2 (hFr fr' hfr'))
            · exact hE
            · exact hwlen sl _
    | kend a w =>
      rw [hk] at h
      rw [hk] at hfresh
      simp only [slotErase, InstructionKind.kw.injEq, Keyword.kend.injEq] at hfresh
      obtain ⟨ha, hw⟩ := hfresh
      subst hw
      cases hs : st.stack with
      | nil => simp only [jumpsStep, hs] at h; cases h
      | cons fr srest =>
        simp only [jumpsStep, hs] at h
        have hFfr : frameOK st.done fr :=
          hF fr (by rw [hs]; exact List.mem_cons_self fr srest)
        have hFr : ∀ fr' ∈ srest, frameOK st.done fr' :=
          fun fr' h' => hF fr' (by rw [hs]; exact List.mem_cons_of_mem _ h')
        have hwlen : ∀ (sl : Slot) (i : Instruction),
            (slotWrite st.done sl ip ++ [i]).length = ip + 1 := by
          intro sl i; simp [length_slotWrite, hip]
        have hplen : ∀ (sl : Slot) (i : Instruction),
            (patchElifs (slotWrite st.done sl ip) st.elifs ip ++ [i]).length = ip + 1 := by
          intro sl i; simp [length_patchElifs, length_slotWrite, hip]
        cases ht : fr.tag with
        | tmac => rw [ht] at h; cases h
        | tdo => rw [ht] at h; cases h
        | tif => rw [ht] at h; cases h
        | telif => rw [ht] at h; cases h
        | twhile => rw [ht] at h; cases h
        | telse =>
          rw [ht] at h
          cases hsa : fr.slotA with
          | none => rw [hsa] at h; cases h
          | some sl =>
            rw [hsa] at h; cases h
            obtain ⟨j, hA⟩ := hFfr.2.2 (Or.inr (Or.inr (Or.inl ht)))
            rw [hsa] at hA
            injection hA with hA
            have hsl2 : sl.2 = SlotField.fEndIp := by rw [hA]
            refine ⟨jumpsInv_mk _ _ _ ?_ ?_ ?_ ?_, ?_⟩
            · exact doneBacked_append _ _
                (doneBacked_patchElifs st.elifs (slotWrite st.done sl ip) ip hE
                  (doneBacked_slotWrite st.done sl ip hsl2 hB))
                (fun a' w' hkk => by cases hkk)
            · rw [hplen]
              refine slotsBounded_append _ _
                (slotsBounded_patchElifs st.elifs (slotWrite st.done sl ip) ip
                  (slotsBounded_slotWrite st.done sl ip
                    (slotsBounded_mono (by omega) st.done hS) (Or.inl (by omega)))
                  (Or.inl (by omega))) ?_
              intro x hx
              have hx' : x ∈ [ip] := hx
              simp at hx'
              subst hx'
              left; omega
            · intro fr' hfr'
              exact frameOK_append _ _
                (frameOK_patchElifs st.elifs (slotWrite st.done sl ip) ip hE
                  (frameOK_slotWrite st.done sl ip hsl2 (hFr fr' hfr')))
            · intro s hsm
              cases hsm
            · exact hplen sl _
        | tifdo =>
          rw [ht] at h
          cases hsa : fr.slotA with
          | none => rw [hsa] at h; cases h
          | some sl =>
            rw [hsa] at h; cases h
            obtain ⟨j, hA⟩ := hFfr.2.2 (Or.inl ht)
            rw [hsa] at hA
            injection hA with hA
            have hsl2 : sl.2 = SlotField.fEndIp := by rw [hA]
            refine ⟨jumpsInv_mk _ _ _ ?_ ?_ ?_ ?_, ?_⟩
            · exact doneBacked_append _ _ (doneBacked_slotWrite st.done sl ip hsl2 hB)
                (fun a' w' hkk => by cases hkk)
            · rw [hwlen]
              refine slotsBounded_append _ _
                (slotsBounded_slotWrite st.done sl ip
                  (slotsBounded_mono (by omega) st.done hS) (Or.inl (by omega))) ?_
              intro x hx
              have hx' : x ∈ [ip] := hx
              simp at hx'
              subst hx'
              left; omega
            · intro fr' hfr'
              exact frameOK_append _ _
                (frameOK_slotWrite st.done sl ip hsl2 (hFr fr' hfr'))
            · exact hE
            · exact hwlen sl _
        | telifdo =>
          rw [ht] at h
          cases hsa : fr.slotA with
          | none => rw [hsa] at h; cases h
          | some sl =>
            rw [hsa] at h; cases h
            obtain ⟨j, hA⟩ := hFfr.2.2 (Or.inr (Or.inl ht))
            rw [hsa] at hA
            injection hA with hA
            have hsl2 : sl.2 = SlotField.fEndIp := by rw [hA]
            refine ⟨jumpsInv_mk _ _ _ ?_ ?_ ?_ ?_, ?_⟩
            · exact doneBacked_append _ _
                (doneBacked_patchElifs st.elifs (slotWrite st.done sl ip) ip hE
                  (doneBacked_slotWrite st.done sl ip hsl2 hB))
                (fun a' w' hkk => by cases hkk)
            · rw [hplen]
              refine slotsBounded_append _ _
                (slotsBounded_patchElifs st.elifs (slotWrite st.done sl ip) ip
                  (slotsBounded_slotWrite st.done sl ip
                    (slotsBounded_mono (by omega) st.done hS) (Or.inl (by omega)))
                  (Or.inl (by omega))) ?_
              intro x hx
              have hx' : x ∈ [ip] := hx
              simp at hx'
              subst hx'
              left; omega
            · intro fr' hfr'
              exact frameOK_append _ _
                (frameOK_patchElifs st.elifs (slotWrite st.done sl ip) ip hE
                  (frameOK_slotWrite st.done sl ip hsl2 (hFr fr' hfr')))
            · intro s hsm
              cases hsm
            · exact hplen sl _
        | twhiledo =>
          rw [ht] at h
          cases hsa : fr.slotA with
          | none => rw [hsa] at h; cases h
          | some sl =>
            rw [hsa] at h; cases h
            obtain ⟨j, hA⟩ := hFfr.2.2 (Or.inr (Or.inr (Or.inr ht)))
            rw [hsa] at hA
            injection hA with hA
            have hsl2 : sl.2 = SlotField.fEndIp := by rw [hA]
            cases hB2 : fr.slotB with
            | none =>
              have hm0 : Option.map (slotRead st.done) (none : Option Slot) = none := rfl
              rw [hm0]
              have hset0 : setEndWhile (InstructionKind.kw (Keyword.kend ip none)) none
                  = InstructionKind.kw (Keyword.kend ip none) := rfl
              rw [hset0]
              refine ⟨jumpsInv_mk _ _ _ ?_ ?_ ?_ ?_, ?_⟩
              · exact doneBacked_append _ _ (doneBacked_slotWrite st.done sl ip hsl2 hB)
                  (fun a' w' hkk => by cases hkk)
              · rw [hwlen]
                refine slotsBounded_append _ _
                  (slotsBounded_slotWrite st.done sl ip
                    (slotsBounded_mono (by omega) st.done hS) (Or.inl (by omega))) ?_
                intro x hx
                have hx' : x ∈ [ip] := hx
                simp at hx'
                subst hx'
                left; omega
              · intro fr' hfr'
                exact frameOK_append _ _
                  (frameOK_slotWrite st.done sl ip hsl2 (hFr fr' hfr'))
              · exact hE
              · exact hwlen sl _
            | some s2 =>
              have hwAt : whileAt st.done s2 := hFfr.2.1 ht s2 hB2
              have hrd : slotRead st.done s2 = s2.1 := whileAt_slotRead st.done hwAt
              have hlt2 : s2.1 < st.done.length := whileAt_lt st.done hwAt
              have hm1 : Option.map (slotRead st.done) (some s2) = some s2.1 := by
                show some (slotRead st.done s2) = some s2.1
                rw [hrd]
              rw [hm1]
              have hset1 : setEndWhile (InstructionKind.kw (Keyword.kend ip none)) (some s2.1)
                  = InstructionKind.kw (Keyword.kend ip (some s2.1)) := rfl
              rw [hset1]
              refine ⟨jumpsInv_mk _ _ _ ?_ ?_ ?_ ?_, ?_⟩
              · refine doneBacked_append _ _ (doneBacked_slotWrite st.done sl ip hsl2 hB) ?_
                intro a' w' hkk
                have hkk' : InstructionKind.kw (Keyword.kend ip (some s2.1)) =
                    InstructionKind.kw (Keyword.kend a' (some w')) := hkk
                injection hkk' with h1
                injection h1 with h2 h3
                injection h3 with h4
                subst h4
                obtain ⟨hfs2, instW, dW, hgW, hkW⟩ := whileAt_slotWrite st.done sl ip hsl2 hwAt
                exact ⟨instW, dW, hgW, hkW⟩
              · rw [hwlen]
                refine slotsBounded_append _ _
                  (slotsBounded_slotWrite st.done sl ip
                    (slotsBounded_mono (by omega) st.done hS) (Or.inl (by omega))) ?_
                intro x hx
                have hx' : x ∈ [ip, s2.1] := hx
                simp at hx'
                rcases hx' with rfl | rfl
                · left; omega
                · left; omega
              · intro fr' hfr'
                exact frameOK_append _ _
                  (frameOK_slotWrite st.done sl ip hsl2 (hFr fr' hfr'))
              · exact hE
              · exact hwlen sl _

theorem jumpsGo_inv : ∀ (l : List Instruction) (st : JumpSt) (ip : Nat)
    (res : List Instruction),
    jumpsGo st ip l = .ok res → jumpsInv st → st.done.length = ip →
    (∀ i ∈ l, slotErase i.kind = i.kind) →
    doneBacked res ∧ slotsBounded res.length res := by
  intro l
  induction l with
  | nil =>
    intro st ip res h hinv hip _
    rw [jumpsGo] at h
    cases h
    exact ⟨hinv.1, hinv.2.1⟩
  | cons inst0 rest ih =>
    intro st ip res h hinv hip hfr
    rw [jumpsGo] at h
    cases hstep : jumpsStep ({ inst0 with ip := ip } : Instruction).kind
        { inst0 with ip := ip } st ip with
    | error e => rw [hstep] at h; cases h
    | ok st' =>
      rw [hstep] at h
      have hfresh : slotErase ({ inst0 with ip := ip } : Instruction).kind =
          ({ inst0 with ip := ip } : Instruction).kind :=
        hfr inst0 (List.mem_cons_self inst0 rest)
      obtain ⟨hinv', hlen'⟩ := jumpsStep_inv _ st st' ip hfresh hinv hip hstep
      exact ih st' (ip + 1) res h hinv' hlen'
        (fun i hi => hfr i (List.mem_cons_of_mem _ hi))

/-! ## C9 — jump-target validity of the resolved program -/

/-- C9: on every program whose keyword jump slots are at their parse
defaults (all zero, no `while_ip`), a successful run of the Control-Flow
Resolver produces an instruction array in which every populated jump-slot
value is a valid index into the array, and every `End` carrying a
`while_ip` points at a `While` whose recorded `self_ip` equals that
index (`end.loop_back_target = while.self_ip`). -/
theorem jumps_jump_targets_valid (prog out : Program)
    (hfresh : ∀ i ∈ prog.instructions, slotErase i.kind = i.kind)
    (h : jumps prog = .ok out) :
    (∀ i ∈ out.instructions, ∀ v ∈ slotValues i.kind,
      v < out.instructions.length) ∧
    (∀ (j : Nat) (inst : Instruction), out.instructions[j]? = some inst →
      ∀ (s w : Nat), inst.kind = .kw (.kend s (some w)) →
      ∃ (inst' : Instruction) (d : Nat), out.instructions[w]? = some inst' ∧
        inst'.kind = .kw (.kwhile w d)) := by
  unfold jumps at h
  cases hgo : jumpsGo {} 0 prog.instructions with
  | error e => rw [hgo] at h; cases h
  | ok res =>
    rw [hgo] at h
    cases h
    have hinv0 : jumpsInv {} := by
      refine ⟨?_, ?_, ?_, ?_⟩
      · intro j i hj
        simp at hj
      · intro i hi
        cases hi
      · intro fr hfr
        cases hfr
      · intro s hs
        cases hs
    obtain ⟨hbacked, hbound⟩ :=
      jumpsGo_inv prog.instructions {} 0 res hgo hinv0 rfl hfresh
    constructor
    · intro i hi v hv
      rcases hbound i hi v hv with h1 | h1
      · exact h1
      · subst h1
        exact List.length_pos.mpr (List.ne_nil_of_mem hi)
    · exact hbacked

/-- C9 witness: resolving `while <cond-less> do end` succeeds; every slot
value of the output indexes into the array, and the `End`'s recorded
`while_ip` points back at the `While`. -/
theorem jumps_jump_targets_valid_witness :
    (∀ i ∈ (Program.mk ""
        [{ kind := .kw (.kwhile 0 0) }, { kind := .kw (.kdo 0) },
         { kind := .kw (.kend 0 none) }] []).instructions,
      slotErase i.kind = i.kind) ∧
    (∀ i ∈ (Program.mk ""
        [{ kind := .kw (.kwhile 0 0), loc := ("", 0, 0), ip := 0 },
         { kind := .kw (.kdo 2), loc := ("", 0, 0), ip := 1 },
         { kind := .kw (.kend 2 (some 0)), loc := ("", 0, 0), ip := 2 }]
        []).instructions,
      ∀ v ∈ slotValues i.kind,
        v < (Program.mk ""
          [{ kind := .kw (.kwhile 0 0), loc := ("", 0, 0), ip := 0 },
           { kind := .kw (.kdo 2), loc := ("", 0, 0), ip := 1 },
           { kind := .kw (.kend 2 (some 0)), loc := ("", 0, 0), ip := 2 }]
          []).instructions.length) :=
  ⟨by decide,
   (jumps_jump_targets_valid
      (Program.mk ""
        [{ kind := .kw (.kwhile 0 0) }, { kind := .kw (.kdo 0) },
         { kind := .kw (.kend 0 none) }] [])
      (Program.mk ""
        [{ kind := .kw (.kwhile 0 0), loc := ("", 0, 0), ip := 0 },
         { kind := .kw (.kdo 2), loc := ("", 0, 0), ip := 1 },
         { kind := .kw (.kend 2 (some 0)), loc := ("", 0, 0), ip := 2 }]
        [])
      (by decide) (by decide)).1⟩

end Worth
